import Mathlib

/-!
# Task-Tracker-CLI: verification of the record codec, record store and compound index

Shallow embedding of the core of the repository (src/task.h, src/task.cpp,
src/task_manager.h, src/task_manager.cpp, src/task_matrix.h, src/task_matrix.cpp).

Modelling conventions:
* C++ `std::string` is modelled as `List Char` (`Str`); UTF-8 byte order and
  codepoint order agree, so string comparison semantics match.
* C++ `int` is modelled as unbounded `Int` (signed overflow is UB in the source
  and out of scope); sizes and indices are `Nat`.
* `std::chrono::system_clock::time_point` is modelled as `Nat` milliseconds
  since the epoch (sub-millisecond precision is dropped where the code itself
  truncates; pre-epoch times are out of scope).  Every operation that reads the
  ambient clock (`system_clock::now()`) takes the reading as an explicit `now`
  parameter.
* The libc pair `localtime`/`mktime` used by the codec's timestamp rendering is
  an external collaborator, modelled as an explicit `Clock` value carrying the
  two conversions between seconds and broken-down civil time (`Tm`).
* `std::expected<T, E>` is `Except E T`.
-/

namespace TaskTracker

/-- Strings are lists of characters. -/
abbrev Str := List Char

/-- `std::isspace` in the "C" locale: space, \t, \n, \v, \f, \r. -/
def isSpace (c : Char) : Bool :=
  c = ' ' || c = '\t' || c = '\n' || c = '\x0b' || c = '\x0c' || c = '\r'

/-- The whitespace set `" \t\n\r"` used by the decoder's trim of bare values. -/
def isTrimWs (c : Char) : Bool :=
  c = ' ' || c = '\t' || c = '\n' || c = '\r'

/-- `value.erase(0, find_first_not_of(" \t\n\r")); value.erase(find_last_not_of(" \t\n\r")+1)`:
trim the character set " \t\n\r" from both ends. -/
def trimWs (s : Str) : Str :=
  ((s.dropWhile isTrimWs).reverse.dropWhile isTrimWs).reverse

/-- Index of the first occurrence of `pat` in `s` (C++ `std::string::find(pat)`,
with `none` for `npos`).  The empty pattern matches at 0, as in C++. -/
def firstOcc (pat : Str) : Str → Option Nat
  | [] => if pat.isPrefixOf ([] : Str) then some 0 else none
  | c :: rest =>
    if pat.isPrefixOf (c :: rest) then some 0
    else (firstOcc pat rest).map (· + 1)

/-- C++ `s.find(pat, start)`: first occurrence at index ≥ `start`. -/
def findFrom (pat : Str) (s : Str) (start : Nat) : Option Nat :=
  (firstOcc pat (s.drop start)).map (start + ·)

/-- C++ `s.substr(a, len)`. -/
def substr (s : Str) (a len : Nat) : Str :=
  (s.drop a).take len

/-- The body of a double-quoted value: scan to the closing unescaped quote,
a backslash skipping the following character without interpreting it
(the scan loop of `findValue` in `Task::fromJson` / `TaskManager::fromJsonString`).
A trailing backslash steps past the end, as the C++ index does. -/
def scanStringBody : Str → Str
  | [] => []
  | c :: rest =>
    if c = '"' then []
    else if c = '\\' then
      match rest with
      | [] => [c]
      | c2 :: rest2 => c :: c2 :: scanStringBody rest2
    else c :: scanStringBody rest

/-- A bare-value stop character: `, \x7d \n \r` (the unquoted-value scan). -/
def isBareStop (c : Char) : Bool :=
  c = ',' || c = '\x7d' || c = '\n' || c = '\r'

/-- The search key `"key":` built by `findValue`. -/
def keyPat (key : Str) : Str :=
  '"' :: key ++ ['"', ':']

/-- `unescapeJsonString` from src/task.cpp: interpret `\" \\ \b \f \n \r \t`;
any other backslash sequence keeps the backslash and leaves the following
character to be processed on its own. -/
def unescapeJsonString : Str → Str
  | [] => []
  | c :: rest =>
    if c = '\\' then
      match rest with
      | [] => [c]
      | c2 :: rest2 =>
        if c2 = '"' then '"' :: unescapeJsonString rest2
        else if c2 = '\\' then '\\' :: unescapeJsonString rest2
        else if c2 = 'b' then '\x08' :: unescapeJsonString rest2
        else if c2 = 'f' then '\x0c' :: unescapeJsonString rest2
        else if c2 = 'n' then '\n' :: unescapeJsonString rest2
        else if c2 = 'r' then '\r' :: unescapeJsonString rest2
        else if c2 = 't' then '\t' :: unescapeJsonString rest2
        else '\\' :: unescapeJsonString (c2 :: rest2)
    else c :: unescapeJsonString rest

/-- The `findValue` lambda of `Task::fromJson`: locate `"key":`, skip
whitespace, then read either a quoted string body (unescaped) or a bare token
trimmed of whitespace; empty string when the key is absent. -/
def findValueT (s key : Str) : Str :=
  match firstOcc (keyPat key) s with
  | none => []
  | some i =>
    match (s.drop (i + (keyPat key).length)).dropWhile isSpace with
    | [] => []
    | c :: tail =>
      if c = '"' then unescapeJsonString (scanStringBody tail)
      else trimWs ((c :: tail).takeWhile (fun x => !isBareStop x))

/-- The `findValue` lambda of `TaskManager::fromJsonString`: identical scan, but
the string branch returns the raw body without unescaping. -/
def findValueM (s key : Str) : Str :=
  match firstOcc (keyPat key) s with
  | none => []
  | some i =>
    match (s.drop (i + (keyPat key).length)).dropWhile isSpace with
    | [] => []
    | c :: tail =>
      if c = '"' then scanStringBody tail
      else trimWs ((c :: tail).takeWhile (fun x => !isBareStop x))

/-- `escapeJsonString` from src/task.cpp, one character: escape `" \ \b \f \n \r \t`,
render other control characters below 0x20 as `\u00XX` (lower-case hex), pass
the rest through. -/
def escapeChar (c : Char) : Str :=
  if c = '"' then ['\\', '"']
  else if c = '\\' then ['\\', '\\']
  else if c = '\x08' then ['\\', 'b']
  else if c = '\x0c' then ['\\', 'f']
  else if c = '\n' then ['\\', 'n']
  else if c = '\r' then ['\\', 'r']
  else if c = '\t' then ['\\', 't']
  else if c.toNat < 32 then
    '\\' :: 'u' :: '0' :: '0' :: [Nat.digitChar (c.toNat / 16), Nat.digitChar (c.toNat % 16)]
  else [c]

/-- `escapeJsonString` from src/task.cpp. -/
def escapeJsonString (s : Str) : Str :=
  s.flatMap escapeChar

/-- Decimal digits of a natural number, as rendered by `std::format`; the fuel
argument only bounds the number of digits (`n` has at most `n + 1` digits), so
the fuel-exhausted branch is unreachable from `natToChars`. -/
def natToCharsAux : Nat → Nat → Str
  | 0, _ => []
  | fuel + 1, n =>
    if n < 10 then [Nat.digitChar n]
    else natToCharsAux fuel (n / 10) ++ [Nat.digitChar (n % 10)]

def natToChars (n : Nat) : Str := natToCharsAux (n + 1) n

/-- Decimal rendering of a C++ `int` by `std::format`. -/
def intToChars (n : Int) : Str :=
  if n < 0 then '-' :: natToChars (-n).toNat else natToChars n.toNat

/-- Accumulate the value of a maximal digit prefix. -/
def readDigits (acc : Nat) : Str → Nat × Str
  | [] => (acc, [])
  | c :: rest =>
    if c.isDigit then readDigits (acc * 10 + (c.toNat - 48)) rest
    else (acc, c :: rest)

/-- `std::stoi`: skip whitespace, optional sign, then at least one digit
(partial parses such as "12ab" succeed with 12); `none` models the
`std::invalid_argument` throw.  Overflow is out of scope (`Int` is unbounded). -/
def stoiOpt (s : Str) : Option Int :=
  let s1 := s.dropWhile isSpace
  match s1 with
  | [] => none
  | '-' :: rest =>
    match rest with
    | c :: _ => if c.isDigit then some (-((readDigits 0 rest).1 : Int)) else none
    | [] => none
  | '+' :: rest =>
    match rest with
    | c :: _ => if c.isDigit then some ((readDigits 0 rest).1 : Int) else none
    | [] => none
  | c :: _ => if c.isDigit then some ((readDigits 0 s1).1 : Int) else none

/-- String literal helper. -/
def lit (s : String) : Str := s.toList

/-! ## Civil time

`timePointToIsoString` renders via `localtime` + `put_time("%Y-%m-%dT%H:%M:%S")`
and `isoStringToTimePoint` parses via `get_time` + `mktime`.  `localtime` and
`mktime` are libc collaborators outside the repository; they are modelled as an
explicit `Clock`, a pair of conversions between seconds-since-epoch and
broken-down civil time.  `Tm` carries the fields as rendered (year as printed
by `%Y`, month 1-12 as printed by `%m`). -/

structure Tm where
  year : Nat
  mon : Nat
  mday : Nat
  hour : Nat
  tmin : Nat
  sec : Nat
deriving DecidableEq, Repr

/-- The libc civil-time collaborator: `localtime` (seconds to broken-down local
time) and `mktime` (its inverse). -/
structure Clock where
  localtime : Nat → Tm
  mktime : Tm → Nat

/-- Broken-down time whose rendering is 4+2+2+2+2+2 digits wide, within the
ranges `localtime` produces for in-range epochs. -/
def TmOK (tm : Tm) : Prop :=
  1970 ≤ tm.year ∧ tm.year ≤ 9999 ∧ 1 ≤ tm.mon ∧ tm.mon ≤ 12 ∧
  1 ≤ tm.mday ∧ tm.mday ≤ 31 ∧ tm.hour ≤ 23 ∧ tm.tmin ≤ 59 ∧ tm.sec ≤ 59

instance (tm : Tm) : Decidable (TmOK tm) := by unfold TmOK; infer_instance

/-- Zero-padding to width 2 (`put_time` `%m %d %H %M %S`). -/
def pad2 (n : Nat) : Str :=
  if n < 10 then '0' :: natToChars n else natToChars n

/-- Zero-padding to width 3 (`std::format("\x7b:03d\x7d", ms)`). -/
def pad3 (n : Nat) : Str :=
  if n < 10 then '0' :: '0' :: natToChars n
  else if n < 100 then '0' :: natToChars n
  else natToChars n

/-- `put_time(tm, "%Y-%m-%dT%H:%M:%S")`. -/
def renderTm (tm : Tm) : Str :=
  natToChars tm.year ++ '-' :: pad2 tm.mon ++ '-' :: pad2 tm.mday ++
  'T' :: pad2 tm.hour ++ ':' :: pad2 tm.tmin ++ ':' :: pad2 tm.sec

/-- `timePointToIsoString`: truncate to seconds (`to_time_t`), render the local
broken-down time, and append `.mmm` from the millisecond remainder. -/
def timePointToIsoString (clock : Clock) (tp : Nat) : Str :=
  renderTm (clock.localtime (tp / 1000)) ++ '.' :: pad3 (tp % 1000)

/-- Read 1 to `w` digits (`std::get_time` numeric field of width `w`). -/
def readField (w : Nat) (s : Str) : Option (Nat × Str) :=
  let ds := (s.takeWhile Char.isDigit).take w
  if ds = [] then none else some ((readDigits 0 ds).1, s.drop ds.length)

/-- Expect a literal character (`get_time` format literal). -/
def expectCh (c : Char) (s : Str) : Option Str :=
  match s with
  | c' :: rest => if c' = c then some rest else none
  | [] => none

/-- `ss >> get_time(&tm, "%Y-%m-%dT%H:%M:%S")`.  A failing parse is ignored by
the caller, which then feeds the partially-filled `tm` to `mktime`; we model
that implementation-defined outcome as the zero-initialised `tm` image.  Codec
output always parses, so the fallback is never reached on the round-trip path. -/
def getTimeTm (s : Str) : Option Tm := do
  let (y, s) ← readField 4 s
  let s ← expectCh '-' s
  let (mo, s) ← readField 2 s
  let s ← expectCh '-' s
  let (d, s) ← readField 2 s
  let s ← expectCh 'T' s
  let (h, s) ← readField 2 s
  let s ← expectCh ':' s
  let (mi, s) ← readField 2 s
  let s ← expectCh ':' s
  let (sec, _) ← readField 2 s
  pure ⟨y, mo, d, h, mi, sec⟩

/-- The zero-initialised `std::tm`, viewed through our rendered-field lens. -/
def zeroTm : Tm := ⟨1900, 1, 0, 0, 0, 0⟩

/-- `isoStringToTimePoint`: `get_time` + `mktime`, then add the millisecond
suffix found after the first `.` when it starts with a digit. -/
def isoStringToTimePoint (clock : Clock) (s : Str) : Nat :=
  let tm := (getTimeTm s).getD zeroTm
  let tp := clock.mktime tm * 1000
  match firstOcc ['.'] s with
  | none => tp
  | some dot =>
    let msStr := substr s (dot + 1) 3
    match msStr with
    | c :: _ => if c.isDigit then tp + (readDigits 0 msStr).1 else tp
    | [] => tp

/-! ## The record domain (src/task.h, src/task.cpp) -/

inductive TaskStatus
  | Pending
  | InProgress
  | Completed
  | Cancelled
deriving DecidableEq, Repr

inductive TaskError
  | InvalidId
  | TaskNotFound
  | InvalidStatus
  | EmptyTitle
  | DuplicateTask
  | InvalidPriority
deriving DecidableEq, Repr

inductive JsonError
  | FileNotFound
  | InvalidFormat
  | WriteError
  | ParseError
deriving DecidableEq, Repr

abbrev TaskResult := Except TaskError Bool
abbrev TaskAddResult := Except TaskError Int
abbrev JsonResult := Except JsonError Bool

structure TaskMetadata where
  created_at : Nat
  updated_at : Nat
  completed_at : Option Nat
  category : Str
  priority : Int
deriving DecidableEq, Repr

structure Task where
  id : Int
  title : Str
  description : Str
  status : TaskStatus
  metadata : TaskMetadata
deriving DecidableEq, Repr

/-- The `Task` constructor: stamps `created_at = updated_at = now`, category
"General", priority 0, no completion time. -/
def Task.make (id : Int) (title description : Str) (status : TaskStatus)
    (now : Nat) : Task :=
  { id := id, title := title, description := description, status := status,
    metadata := { created_at := now, updated_at := now, completed_at := none,
                  category := lit "General", priority := 0 } }

/-- `Task::setTitle`. -/
def Task.setTitle (t : Task) (title : Str) (now : Nat) : TaskResult × Task :=
  if title = [] then (.error .EmptyTitle, t)
  else (.ok true, { t with title := title,
                           metadata := { t.metadata with updated_at := now } })

/-- `Task::setDescription`. -/
def Task.setDescription (t : Task) (description : Str) (now : Nat) :
    TaskResult × Task :=
  (.ok true, { t with description := description,
                      metadata := { t.metadata with updated_at := now } })

/-- `Task::setStatus`: store the status, stamp `updated_at`, and stamp
`completed_at` exactly when the new status is Completed. -/
def Task.setStatus (t : Task) (status : TaskStatus) (now : Nat) :
    TaskResult × Task :=
  let t1 : Task := { t with status := status,
                            metadata := { t.metadata with updated_at := now } }
  if status = TaskStatus.Completed then
    (.ok true, { t1 with metadata := { t1.metadata with completed_at := some now } })
  else
    (.ok true, t1)

/-- `Task::setPriority` exactly as implemented (src/task.cpp lines 42-46):
the value is committed unconditionally, with no range check. -/
def Task.setPriority (t : Task) (priority : Int) (now : Nat) :
    TaskResult × Task :=
  (.ok true, { t with metadata := { t.metadata with priority := priority,
                                                    updated_at := now } })

/-- `Task::setCategory`. -/
def Task.setCategory (t : Task) (category : Str) (now : Nat) :
    TaskResult × Task :=
  (.ok true, { t with metadata := { t.metadata with category := category,
                                                    updated_at := now } })

/-- `Task::isCompleted`. -/
def Task.isCompleted (t : Task) : Bool := t.status = TaskStatus.Completed

/-- `Task::operator==` (src/task.h lines 278-280): compares `_id`, `_title`
and `_status` only. -/
def Task.beq (a b : Task) : Bool :=
  decide (a.id = b.id) && decide (a.title = b.title) && decide (a.status = b.status)

/-- `taskStatusToString`. -/
def taskStatusToString : TaskStatus → Str
  | .Pending => lit "Pending"
  | .InProgress => lit "In Progress"
  | .Completed => lit "Completed"
  | .Cancelled => lit "Cancelled"

/-- `stringToTaskStatus`. -/
def stringToTaskStatus (s : Str) : Option TaskStatus :=
  if s = lit "pending" || s = lit "Pending" then some .Pending
  else if s = lit "progress" || s = lit "in-progress" || s = lit "In Progress" then
    some .InProgress
  else if s = lit "completed" || s = lit "Completed" then some .Completed
  else if s = lit "cancelled" || s = lit "Cancelled" then some .Cancelled
  else none

/-! ## The record store (src/task_manager.h, src/task_manager.cpp) -/

structure TaskManager where
  tasks : List Task
  next_id : Int
deriving DecidableEq, Repr

/-- A fresh `TaskManager`: no tasks, identity counter at 1. -/
def emptyStore : TaskManager := { tasks := [], next_id := 1 }

/-- `TaskManager::addTask`: reject empty titles, reject an existing identical
title, otherwise issue `next_id`, post-increment it, and append the new task. -/
def TaskManager.addTask (m : TaskManager) (title description : Str) (now : Nat) :
    TaskAddResult × TaskManager :=
  if title = [] then (.error .EmptyTitle, m)
  else if m.tasks.any (fun t => t.title == title) then (.error .DuplicateTask, m)
  else
    (.ok m.next_id,
     { tasks := m.tasks ++ [Task.make m.next_id title description .Pending now],
       next_id := m.next_id + 1 })

/-- Erase the first task with the given id, `none` when absent. -/
def eraseFirstTask (id : Int) : List Task → Option (List Task)
  | [] => none
  | t :: ts =>
    if t.id = id then some ts
    else (eraseFirstTask id ts).map (t :: ·)

/-- `TaskManager::removeTask`: erase in place the first (unique) task with the
id, preserving the order of the remainder. -/
def TaskManager.removeTask (m : TaskManager) (id : Int) :
    TaskResult × TaskManager :=
  match eraseFirstTask id m.tasks with
  | none => (.error .TaskNotFound, m)
  | some ts => (.ok true, { m with tasks := ts })

/-! ## The codec (src/task.cpp, src/task_manager.cpp) -/

/-- `Task::toJson`: fixed field order, 2-space indentation, optional
`completed_at` emitted only when present. -/
def Task.toJson (clock : Clock) (t : Task) : Str :=
  lit "\x7b\n  \"id\": " ++ intToChars t.id ++
  lit ",\n  \"title\": \"" ++ escapeJsonString t.title ++
  lit "\",\n  \"description\": \"" ++ escapeJsonString t.description ++
  lit "\",\n  \"status\": \"" ++ taskStatusToString t.status ++
  lit "\",\n  \"category\": \"" ++ escapeJsonString t.metadata.category ++
  lit "\",\n  \"priority\": " ++ intToChars t.metadata.priority ++
  lit ",\n  \"created_at\": \"" ++ timePointToIsoString clock t.metadata.created_at ++
  lit "\",\n  \"updated_at\": \"" ++ timePointToIsoString clock t.metadata.updated_at ++
  lit "\"" ++
  (match t.metadata.completed_at with
   | none => []
   | some ct => lit ",\n  \"completed_at\": \"" ++ timePointToIsoString clock ct ++ lit "\"") ++
  lit "\n\x7d"

/-- `Task::fromJson`: key-search extraction of the nine fields, then
validation and reconstruction.  `now` is the parse-time clock reading used by
the `Task` constructor and the setters (overwritten afterwards for the
timestamps present in the document).  A `std::stoi` throw surfaces as
`ParseError` through the surrounding catch. -/
def Task.fromJson (clock : Clock) (now : Nat) (s : Str) : Except JsonError Task :=
  let id_str := findValueT s (lit "id")
  let title := findValueT s (lit "title")
  let description := findValueT s (lit "description")
  let status_str := findValueT s (lit "status")
  let category := findValueT s (lit "category")
  let priority_str := findValueT s (lit "priority")
  let created_at_str := findValueT s (lit "created_at")
  let updated_at_str := findValueT s (lit "updated_at")
  let completed_at_str := findValueT s (lit "completed_at")
  if id_str = [] ∨ title = [] then .error .InvalidFormat
  else
    match stoiOpt id_str with
    | none => .error .ParseError
    | some id =>
      match stringToTaskStatus status_str with
      | none => .error .InvalidFormat
      | some st =>
        let task := Task.make id title description st now
        let task := if category ≠ [] then (task.setCategory category now).2 else task
        match (if priority_str ≠ [] then (stoiOpt priority_str).map some else some none) with
        | none => .error .ParseError
        | some priority? =>
          let task := match priority? with
                      | some p => (task.setPriority p now).2
                      | none => task
          let task := if created_at_str ≠ [] then
              { task with metadata := { task.metadata with
                  created_at := isoStringToTimePoint clock created_at_str } }
            else task
          let task := if updated_at_str ≠ [] then
              { task with metadata := { task.metadata with
                  updated_at := isoStringToTimePoint clock updated_at_str } }
            else task
          let task := if completed_at_str ≠ [] then
              { task with metadata := { task.metadata with
                  completed_at := some (isoStringToTimePoint clock completed_at_str) } }
            else task
          .ok task

/-- Indent every line after a newline by four spaces (the `getline` loop of
`TaskManager::toJsonString`; task text never ends in a newline). -/
def indentNL : Str → Str
  | [] => []
  | c :: rest =>
    if c = '\n' then '\n' :: ' ' :: ' ' :: ' ' :: ' ' :: indentNL rest
    else c :: indentNL rest

def indent4 (s : Str) : Str := ' ' :: ' ' :: ' ' :: ' ' :: indentNL s

/-- One task block per task: indented text, a comma after every block but the
last, a newline after every block. -/
def joinBlocks : List Str → Str
  | [] => []
  | [b] => b ++ lit "\n"
  | b :: rest => b ++ lit ",\n" ++ joinBlocks rest

/-- `TaskManager::toJsonString`: version header, `next_id`, then the task
array with each record's text indented four spaces. -/
def TaskManager.toJsonString (clock : Clock) (m : TaskManager) : Str :=
  lit "\x7b\n  \"version\": \"1.0\",\n  \"next_id\": " ++ intToChars m.next_id ++
  lit ",\n  \"tasks\": [\n" ++
  joinBlocks (m.tasks.map (fun t => indent4 (t.toJson clock))) ++
  lit "  ]\n\x7d"

/-- The brace walk of `fromJsonString`: from index `i` with open-brace count
`depth`, advance while `i < array_end` and `depth > 0`, counting braces.
Returns the final index and final count.  The fuel is exactly the remaining
room `array_end - i`, so exhaustion coincides with the loop bound. -/
def braceEndAux (s : Str) (array_end : Nat) : Nat → Nat → Nat → Nat × Nat
  | 0, i, depth => (i, depth)
  | fuel + 1, i, depth =>
    if i < array_end ∧ 0 < depth then
      let c := s.getD i ' '
      braceEndAux s array_end fuel (i + 1)
        (if c = '\x7b' then depth + 1 else if c = '\x7d' then depth - 1 else depth)
    else (i, depth)

def braceEnd (s : Str) (array_end : Nat) (i : Nat) (depth : Nat) : Nat × Nat :=
  braceEndAux s array_end (array_end - i) i depth

theorem braceEndAux_ge (s : Str) (array_end : Nat) :
    ∀ fuel i depth, i ≤ (braceEndAux s array_end fuel i depth).1 := by
  intro fuel
  induction fuel with
  | zero => intro i depth; exact Nat.le_refl i
  | succ fuel ih =>
    intro i depth
    unfold braceEndAux
    split
    · exact Nat.le_trans (Nat.le_succ i) (ih (i + 1) _)
    · exact Nat.le_refl i

theorem braceEnd_ge (s : Str) (array_end i depth : Nat) :
    i ≤ (braceEnd s array_end i depth).1 :=
  braceEndAux_ge s array_end _ i depth

theorem findFrom_ge (pat s : Str) (start i : Nat) :
    findFrom pat s start = some i → start ≤ i := by
  unfold findFrom
  cases firstOcc pat (s.drop start) with
  | none => simp
  | some k => simp; omega

/-- The task-array loop of `TaskManager::fromJsonString`: find the next `\x7b`,
walk to its matching close brace (bounded by `array_end`), parse the substring
when the walk closed, and continue from the walk's end.  Returns the tasks
pushed so far and the error that aborted the loop, if any.  Each iteration
moves `pos` forward by at least one, so `array_end - pos` iterations suffice
and the fuel-exhausted branch coincides with the loop bound `pos < array_end`
failing. -/
def parseLoopAux (clock : Clock) (now : Nat) (s : Str) (array_end : Nat) :
    Nat → Nat → List Task × Option JsonError
  | 0, _ => ([], none)
  | fuel + 1, pos =>
    if pos < array_end then
      match findFrom (lit "\x7b") s pos with
      | none => ([], none)
      | some obj_start =>
        if array_end ≤ obj_start then ([], none)
        else
          let oe := braceEnd s array_end (obj_start + 1) 1
          if oe.2 = 0 then
            match Task.fromJson clock now (substr s obj_start (oe.1 - obj_start)) with
            | .ok t =>
              let rest := parseLoopAux clock now s array_end fuel oe.1
              (t :: rest.1, rest.2)
            | .error e => ([], some e)
          else
            parseLoopAux clock now s array_end fuel oe.1
    else ([], none)

def parseLoop (clock : Clock) (now : Nat) (s : Str) (array_end pos : Nat) :
    List Task × Option JsonError :=
  parseLoopAux clock now s array_end (array_end - pos) pos

/-- `TaskManager::fromJsonString`: commit `next_id` from the header as soon as
it parses, locate the `tasks` array, clear the collection, then parse the
array elements in order.  A mid-array failure leaves the already-parsed prefix
as the collection. -/
def TaskManager.fromJsonString (clock : Clock) (now : Nat) (m : TaskManager)
    (s : Str) : JsonResult × TaskManager :=
  let next_id_str := findValueM s (lit "next_id")
  match (if next_id_str = [] then some m.next_id else stoiOpt next_id_str) with
  | none => (.error .ParseError, m)
  | some nid =>
    match firstOcc (lit "\"tasks\":") s with
    | none => (.error .InvalidFormat, { m with next_id := nid })
    | some tasks_pos =>
      match findFrom (lit "[") s tasks_pos with
      | none => (.error .InvalidFormat, { m with next_id := nid })
      | some array_start =>
        match findFrom (lit "]") s array_start with
        | none => (.error .InvalidFormat, { m with next_id := nid })
        | some array_end =>
          let res := parseLoop clock now s array_end (array_start + 1)
          match res.2 with
          | some e => (.error e, { tasks := res.1, next_id := nid })
          | none => (.ok true, { tasks := res.1, next_id := nid })

/-! ## The compound index (src/task_matrix.h, src/task_matrix.cpp)

`std::flat_map` keeps its entries sorted by key; it is modelled as a sorted
association list.  `matrix[category][priority]` on the mutating path finds the
entry or inserts a default at the sorted position. -/

/-- Association-list lookup (`flat_map::find`). -/
def findKey {κ β : Type} [DecidableEq κ] : List (κ × β) → κ → Option β
  | [], _ => none
  | (k', v) :: rest, k => if k = k' then some v else findKey rest k

/-- `flat_map::operator[]` followed by an update of the mapped value: update
the entry in place when the key exists, otherwise insert `f none` at the
sorted position. -/
def updKey {κ β : Type} [LinearOrder κ] (k : κ) (f : Option β → β) :
    List (κ × β) → List (κ × β)
  | [] => [(k, f none)]
  | (k', v) :: rest =>
    if k = k' then (k', f (some v)) :: rest
    else if k < k' then (k, f none) :: (k', v) :: rest
    else (k', v) :: updKey k f rest

structure TaskMatrix where
  matrix : List (Str × List (Int × List Task))
deriving Repr

/-- The category key `TaskMatrix::addTask` files a record under: the literal
"Default" when the record's category is empty. -/
def effCat (t : Task) : Str :=
  if t.metadata.category = [] then lit "Default" else t.metadata.category

/-- `TaskMatrix::addTask`: `matrix[category][priority].push_back(task)`. -/
def TaskMatrix.addTask (mx : TaskMatrix) (t : Task) : TaskMatrix :=
  ⟨updKey (effCat t)
    (fun inner => updKey t.metadata.priority
      (fun bucket => bucket.getD [] ++ [t]) (inner.getD [])) mx.matrix⟩

/-- The const branch of the multidimensional `operator[]` (src/task_matrix.h
lines 18-34): find the category, find the priority, return the stored list, or
the static empty list when either level is absent.  Being the const overload it
cannot and does not modify the matrix. -/
def TaskMatrix.subscriptConst (mx : TaskMatrix) (category : Str) (priority : Int) :
    List Task :=
  match findKey mx.matrix category with
  | none => []
  | some inner =>
    match findKey inner priority with
    | none => []
    | some bucket => bucket

/-- `TaskMatrix::hasCategory`. -/
def TaskMatrix.hasCategory (mx : TaskMatrix) (category : Str) : Bool :=
  (findKey mx.matrix category).isSome

/-- The empty matrix. -/
def emptyMatrix : TaskMatrix := ⟨[]⟩

/-- A matrix built by adding each task in turn (the rebuild-from-snapshot
pattern every query-facing caller uses). -/
def buildMatrix (ts : List Task) : TaskMatrix :=
  ts.foldl TaskMatrix.addTask emptyMatrix

/-! ## C1: the `setPriority` range check -/

/-- C1: the spec requires `Task::setPriority(p)` to fail with InvalidPriority
for `p < 0` or `p > 10` and to leave the priority unchanged there.  The code
(src/task.cpp lines 42-46) has no range check: out-of-range values are
committed and the call reports success — contradicting the header's own
documentation (`@param priority New priority for the task (0-10)`, the
`InvalidPriority` enumerator, and the `isValidPriority` validator).  This
theorem evaluates the implementation at the failing inputs 11 and -1. -/
theorem c1_setPriority_accepts_out_of_range :
    ((Task.make 1 (lit "t") [] .Pending 0).setPriority 11 5).1 = Except.ok true ∧
    ((Task.make 1 (lit "t") [] .Pending 0).setPriority 11 5).2.metadata.priority = 11 ∧
    ((Task.make 1 (lit "t") [] .Pending 0).setPriority (-1) 5).1 = Except.ok true ∧
    ((Task.make 1 (lit "t") [] .Pending 0).setPriority (-1) 5).2.metadata.priority = -1 :=
  ⟨rfl, rfl, rfl, rfl⟩

/-! ## C3: monotonic identity -/

/-- A store operation drawn from the add/remove API. -/
inductive StoreOp
  | add (title description : Str) (now : Nat)
  | remove (id : Int)

/-- Apply one operation; the second component lists the ids issued by it
(one for a successful add, none otherwise). -/
def applyOp (m : TaskManager) : StoreOp → TaskManager × List Int
  | .add title description now =>
    match m.addTask title description now with
    | (.ok i, m') => (m', [i])
    | (.error _, m') => (m', [])
  | .remove id => ((m.removeTask id).2, [])

/-- Run a sequence of operations, collecting every issued id in issuance
order. -/
def runOps (m : TaskManager) : List StoreOp → TaskManager × List Int
  | [] => (m, [])
  | op :: ops =>
    let st := applyOp m op
    let rest := runOps st.1 ops
    (rest.1, st.2 ++ rest.2)

theorem removeTask_next_id (m : TaskManager) (id : Int) :
    ((m.removeTask id).2).next_id = m.next_id := by
  unfold TaskManager.removeTask
  cases eraseFirstTask id m.tasks <;> rfl

theorem runOps_cons (m : TaskManager) (op : StoreOp) (ops : List StoreOp) :
    runOps m (op :: ops) =
      ((runOps (applyOp m op).1 ops).1,
       (applyOp m op).2 ++ (runOps (applyOp m op).1 ops).2) := rfl

theorem applyOp_add_empty (m : TaskManager) (d : Str) (now : Nat) :
    applyOp m (.add [] d now) = (m, []) := by
  simp [applyOp, TaskManager.addTask]

theorem applyOp_add_dup (m : TaskManager) (title d : Str) (now : Nat)
    (h1 : title ≠ []) (h2 : m.tasks.any (fun t => t.title == title) = true) :
    applyOp m (.add title d now) = (m, []) := by
  simp [applyOp, TaskManager.addTask, h1, h2]

theorem applyOp_add_ok (m : TaskManager) (title d : Str) (now : Nat)
    (h1 : title ≠ []) (h2 : ¬ m.tasks.any (fun t => t.title == title) = true) :
    applyOp m (.add title d now) =
      ({ tasks := m.tasks ++ [Task.make m.next_id title d .Pending now],
         next_id := m.next_id + 1 }, [m.next_id]) := by
  simp [applyOp, TaskManager.addTask, h1, h2]

theorem runOps_ids (ops : List StoreOp) (m : TaskManager) :
    m.next_id ≤ (runOps m ops).1.next_id ∧
    (∀ i ∈ (runOps m ops).2, m.next_id ≤ i ∧ i < (runOps m ops).1.next_id) ∧
    (runOps m ops).2.Pairwise (· < ·) := by
  induction ops generalizing m with
  | nil => simp [runOps]
  | cons op ops ih =>
    rw [runOps_cons]
    cases op with
    | add title description now =>
      by_cases h1 : title = []
      · subst h1
        rw [applyOp_add_empty]
        simpa using ih m
      · by_cases h2 : m.tasks.any (fun t => t.title == title) = true
        · rw [applyOp_add_dup m title description now h1 h2]
          simpa using ih m
        · rw [applyOp_add_ok m title description now h1 h2]
          have ih' := ih { tasks := m.tasks ++ [Task.make m.next_id title description .Pending now],
                           next_id := m.next_id + 1 }
          simp only at ih' ⊢
          refine ⟨by have := ih'.1; simp at this ⊢; omega, ?_, ?_⟩
          · intro i hi
            rcases List.mem_cons.1 hi with rfl | hi'
            · refine ⟨le_refl _, ?_⟩
              have := ih'.1; simp at this; omega
            · have := ih'.2.1 i hi'
              simp at this
              exact ⟨by omega, this.2⟩
          · refine List.Pairwise.cons (fun i hi => ?_) ih'.2.2
            have := ih'.2.1 i hi; simp at this; omega
    | remove id =>
      have hnid := removeTask_next_id m id
      have ih' := ih ((m.removeTask id)).2
      rw [hnid] at ih'
      simpa [applyOp] using ih'

/-- C3: starting from the empty store, over any sequence of add and remove
operations the ids issued by successful adds are pairwise strictly increasing
in issuance order (hence each id is issued at most once); removal never allows
an id to be reissued. -/
theorem c3_monotonic_identity (ops : List StoreOp) :
    (runOps emptyStore ops).2.Pairwise (· < ·) ∧ (runOps emptyStore ops).2.Nodup := by
  have h := runOps_ids ops emptyStore
  exact ⟨h.2.2, h.2.2.imp (fun hlt => Int.ne_of_lt hlt)⟩

/-! ## C4: duplicate rejection -/

/-- Every task held by the store has a non-empty title.  `addTask` and the
decoder both reject empty titles, so every store state the program constructs
satisfies this. -/
def TaskManager.wellFormed (m : TaskManager) : Prop :=
  ∀ t ∈ m.tasks, t.title ≠ []

instance (m : TaskManager) : Decidable m.wellFormed := by
  unfold TaskManager.wellFormed; infer_instance

/-- C4: when some record of the store has title `X` (case-sensitive, exact
character-for-character match), `addTask X d` returns DuplicateTask and the
store — record collection and next-identity counter — is returned exactly
unchanged, so no id is consumed. -/
theorem c4_duplicate_rejection (m : TaskManager) (X d : Str) (now : Nat)
    (hwf : m.wellFormed) (hdup : ∃ t ∈ m.tasks, t.title = X) :
    m.addTask X d now = (.error .DuplicateTask, m) := by
  obtain ⟨t, ht, hX⟩ := hdup
  have hne : X ≠ [] := hX ▸ hwf t ht
  have hany : m.tasks.any (fun t => t.title == X) = true :=
    List.any_eq_true.2 ⟨t, ht, by simp [hX]⟩
  unfold TaskManager.addTask
  simp [hne, hany]

def c4Task : Task := Task.make 1 (lit "X") [] .Pending 0

def c4Store : TaskManager := { tasks := [c4Task], next_id := 2 }

theorem c4_witness :
    c4Store.addTask (lit "X") (lit "d") 5 = (.error .DuplicateTask, c4Store) :=
  c4_duplicate_rejection c4Store (lit "X") (lit "d") 5 (by decide)
    ⟨c4Task, by decide, by decide⟩

/-! ## Sorted association lists (the `flat_map` invariant) -/

theorem findKey_eq_none {κ β : Type} [DecidableEq κ] (l : List (κ × β)) (k : κ)
    (h : k ∉ l.map Prod.fst) : findKey l k = none := by
  induction l with
  | nil => rfl
  | cons a rest ih =>
    obtain ⟨a1, a2⟩ := a
    simp only [List.map_cons, List.mem_cons] at h
    push_neg at h
    simp [findKey, h.1, ih h.2]

theorem findKey_some_mem {κ β : Type} [DecidableEq κ] (l : List (κ × β)) (k : κ)
    (v : β) (h : findKey l k = some v) : (k, v) ∈ l := by
  induction l with
  | nil => simp [findKey] at h
  | cons a rest ih =>
    obtain ⟨a1, a2⟩ := a
    by_cases hk : k = a1
    · subst hk
      simp [findKey] at h
      simp [h]
    · simp [findKey, hk] at h
      exact List.mem_cons_of_mem _ (ih h)

theorem updKey_cons_self {κ β : Type} [DecidableEq κ] [LinearOrder κ]
    (k : κ) (a2 : β) (f : Option β → β) (rest : List (κ × β)) :
    updKey k f ((k, a2) :: rest) = (k, f (some a2)) :: rest := by
  simp [updKey]

theorem updKey_cons_lt {κ β : Type} [DecidableEq κ] [LinearOrder κ]
    (k a1 : κ) (a2 : β) (f : Option β → β) (rest : List (κ × β))
    (h1 : k ≠ a1) (h2 : k < a1) :
    updKey k f ((a1, a2) :: rest) = (k, f none) :: (a1, a2) :: rest := by
  simp [updKey, h1, h2]

theorem updKey_cons_gt {κ β : Type} [DecidableEq κ] [LinearOrder κ]
    (k a1 : κ) (a2 : β) (f : Option β → β) (rest : List (κ × β))
    (h1 : k ≠ a1) (h2 : ¬ k < a1) :
    updKey k f ((a1, a2) :: rest) = (a1, a2) :: updKey k f rest := by
  simp [updKey, h1, h2]

theorem findKey_cons_self {κ β : Type} [DecidableEq κ]
    (k : κ) (a2 : β) (rest : List (κ × β)) :
    findKey ((k, a2) :: rest) k = some a2 := by
  simp [findKey]

theorem findKey_cons_ne {κ β : Type} [DecidableEq κ]
    (k a1 : κ) (a2 : β) (rest : List (κ × β)) (h : k ≠ a1) :
    findKey ((a1, a2) :: rest) k = findKey rest k := by
  simp [findKey, h]

theorem findKey_updKey_ne {κ β : Type} [DecidableEq κ] [LinearOrder κ]
    (l : List (κ × β)) (k k' : κ) (f : Option β → β) (h : k' ≠ k) :
    findKey (updKey k f l) k' = findKey l k' := by
  induction l with
  | nil => simp [updKey, findKey, h]
  | cons a rest ih =>
    obtain ⟨a1, a2⟩ := a
    by_cases h1 : k = a1
    · subst h1
      rw [updKey_cons_self, findKey_cons_ne _ _ _ _ h, findKey_cons_ne _ _ _ _ h]
    · by_cases h2 : k < a1
      · rw [updKey_cons_lt _ _ _ _ _ h1 h2, findKey_cons_ne _ _ _ _ h]
      · rw [updKey_cons_gt _ _ _ _ _ h1 h2]
        by_cases h3 : k' = a1
        · subst h3; rw [findKey_cons_self, findKey_cons_self]
        · rw [findKey_cons_ne _ _ _ _ h3, findKey_cons_ne _ _ _ _ h3, ih]

theorem findKey_updKey_self {κ β : Type} [DecidableEq κ] [LinearOrder κ]
    (l : List (κ × β)) (k : κ) (f : Option β → β)
    (hs : (l.map Prod.fst).Pairwise (· < ·)) :
    findKey (updKey k f l) k = some (f (findKey l k)) := by
  induction l with
  | nil => simp [updKey, findKey]
  | cons a rest ih =>
    obtain ⟨a1, a2⟩ := a
    simp only [List.map_cons, List.pairwise_cons] at hs
    by_cases h1 : k = a1
    · subst h1
      rw [updKey_cons_self, findKey_cons_self, findKey_cons_self]
    · by_cases h2 : k < a1
      · have hnone : findKey rest k = none := by
          apply findKey_eq_none
          intro hmem
          exact absurd (lt_trans h2 (hs.1 _ hmem)) (lt_irrefl k)
        rw [updKey_cons_lt _ _ _ _ _ h1 h2, findKey_cons_self,
            findKey_cons_ne _ _ _ _ h1, hnone]
      · rw [updKey_cons_gt _ _ _ _ _ h1 h2, findKey_cons_ne _ _ _ _ h1,
            findKey_cons_ne _ _ _ _ h1, ih hs.2]

theorem updKey_keys_sub {κ β : Type} [DecidableEq κ] [LinearOrder κ]
    (l : List (κ × β)) (k : κ) (f : Option β → β) :
    ∀ x ∈ (updKey k f l).map Prod.fst, x ∈ l.map Prod.fst ∨ x = k := by
  induction l with
  | nil => simp [updKey]
  | cons a rest ih =>
    obtain ⟨a1, a2⟩ := a
    intro x hx
    by_cases h1 : k = a1
    · subst h1
      rw [updKey_cons_self] at hx
      simp only [List.map_cons, List.mem_cons] at hx ⊢
      tauto
    · by_cases h2 : k < a1
      · rw [updKey_cons_lt _ _ _ _ _ h1 h2] at hx
        simp only [List.map_cons, List.mem_cons] at hx ⊢
        tauto
      · rw [updKey_cons_gt _ _ _ _ _ h1 h2] at hx
        simp only [List.map_cons, List.mem_cons] at hx ⊢
        rcases hx with hx | hx
        · tauto
        · rcases ih x hx with h | h <;> tauto

theorem updKey_pairwise {κ β : Type} [DecidableEq κ] [LinearOrder κ]
    (l : List (κ × β)) (k : κ) (f : Option β → β)
    (hs : (l.map Prod.fst).Pairwise (· < ·)) :
    ((updKey k f l).map Prod.fst).Pairwise (· < ·) := by
  induction l with
  | nil => simp [updKey]
  | cons a rest ih =>
    obtain ⟨a1, a2⟩ := a
    simp only [List.map_cons, List.pairwise_cons] at hs
    by_cases h1 : k = a1
    · subst h1
      rw [updKey_cons_self]
      exact List.pairwise_cons.2 ⟨hs.1, hs.2⟩
    · by_cases h2 : k < a1
      · rw [updKey_cons_lt _ _ _ _ _ h1 h2]
        simp only [List.map_cons]
        refine List.pairwise_cons.2 ⟨?_, List.pairwise_cons.2 ⟨hs.1, hs.2⟩⟩
        intro x hx
        simp only [List.mem_cons] at hx
        rcases hx with rfl | hx
        · exact h2
        · exact lt_trans h2 (hs.1 _ hx)
      · rw [updKey_cons_gt _ _ _ _ _ h1 h2]
        simp only [List.map_cons]
        refine List.pairwise_cons.2 ⟨?_, ih hs.2⟩
        intro x hx
        rcases updKey_keys_sub rest k f x hx with h | h
        · exact hs.1 _ h
        · rw [h]
          exact lt_of_le_of_ne (le_of_not_lt h2) (fun e => h1 e.symm)

theorem updKey_mem_sorted {κ β : Type} [DecidableEq κ] [LinearOrder κ]
    (l : List (κ × β)) (k : κ) (f : Option β → β)
    (hs : (l.map Prod.fst).Pairwise (· < ·)) :
    ∀ x ∈ updKey k f l, x ∈ l ∨ x = (k, f (findKey l k)) := by
  induction l with
  | nil => simp [updKey, findKey]
  | cons a rest ih =>
    obtain ⟨a1, a2⟩ := a
    simp only [List.map_cons, List.pairwise_cons] at hs
    intro x hx
    by_cases h1 : k = a1
    · subst h1
      rw [updKey_cons_self] at hx
      rw [findKey_cons_self]
      simp only [List.mem_cons] at hx ⊢
      tauto
    · by_cases h2 : k < a1
      · have hnone : findKey rest k = none := by
          apply findKey_eq_none
          intro hmem
          exact absurd (lt_trans h2 (hs.1 _ hmem)) (lt_irrefl k)
        rw [updKey_cons_lt _ _ _ _ _ h1 h2] at hx
        rw [findKey_cons_ne _ _ _ _ h1, hnone]
        simp only [List.mem_cons] at hx ⊢
        tauto
      · rw [updKey_cons_gt _ _ _ _ _ h1 h2] at hx
        rw [findKey_cons_ne _ _ _ _ h1]
        simp only [List.mem_cons] at hx ⊢
        rcases hx with hx | hx
        · tauto
        · rcases ih hs.2 x hx with h | h <;> tauto

/-! ## The compound-index invariant and lookup correctness -/

/-- The `flat_map` representation invariant: keys strictly sorted at both
levels. -/
def MatWF (mx : TaskMatrix) : Prop :=
  (mx.matrix.map Prod.fst).Pairwise (· < ·) ∧
  ∀ pr ∈ mx.matrix, (pr.2.map Prod.fst).Pairwise (· < ·)

instance (mx : TaskMatrix) : Decidable (MatWF mx) := by
  unfold MatWF; infer_instance

theorem subscriptConst_eq (mx : TaskMatrix) (c : Str) (p : Int) :
    mx.subscriptConst c p =
      (findKey ((findKey mx.matrix c).getD []) p).getD [] := by
  unfold TaskMatrix.subscriptConst
  rcases hc : findKey mx.matrix c with _ | inner
  · simp [findKey]
  · rcases hp : findKey inner p with _ | b <;> simp [hp]

theorem getD_inner_pairwise (mx : TaskMatrix) (c : Str)
    (h2 : ∀ pr ∈ mx.matrix, (pr.2.map Prod.fst).Pairwise (· < ·)) :
    ((((findKey mx.matrix c).getD []).map Prod.fst : List Int)).Pairwise (· < ·) := by
  cases hv : findKey mx.matrix c with
  | none => simp
  | some w => simpa using h2 _ (findKey_some_mem _ _ _ hv)

theorem addTask_matrix (mx : TaskMatrix) (t : Task) :
    (mx.addTask t).matrix =
      updKey (effCat t)
        (fun inner => updKey t.metadata.priority
          (fun bucket => bucket.getD [] ++ [t]) (inner.getD [])) mx.matrix := rfl

theorem addTask_wf (mx : TaskMatrix) (t : Task) (h : MatWF mx) :
    MatWF (mx.addTask t) := by
  obtain ⟨h1, h2⟩ := h
  constructor
  · exact updKey_pairwise _ _ _ h1
  · intro pr hpr
    rw [addTask_matrix] at hpr
    rcases updKey_mem_sorted mx.matrix _ _ h1 pr hpr with hm | hm
    · exact h2 pr hm
    · rw [hm]
      exact updKey_pairwise _ _ _ (getD_inner_pairwise mx (effCat t) h2)

theorem subscriptConst_addTask (mx : TaskMatrix) (t : Task) (c : Str) (p : Int)
    (h : MatWF mx) :
    (mx.addTask t).subscriptConst c p =
      if effCat t = c ∧ t.metadata.priority = p
      then mx.subscriptConst c p ++ [t]
      else mx.subscriptConst c p := by
  obtain ⟨h1, h2⟩ := h
  simp only [subscriptConst_eq, addTask_matrix]
  by_cases hc : effCat t = c
  · subst hc
    rw [findKey_updKey_self _ _ _ h1]
    have hw := getD_inner_pairwise mx (effCat t) h2
    by_cases hp : t.metadata.priority = p
    · subst hp
      simp only [Option.getD_some]
      rw [findKey_updKey_self _ _ _ hw]
      simp
    · simp only [Option.getD_some]
      rw [findKey_updKey_ne _ _ _ _ (fun e => hp e.symm)]
      simp [hp]
  · rw [findKey_updKey_ne _ _ _ _ (fun e => hc e.symm)]
    simp [hc]

theorem buildMatrix_aux (ts : List Task) (mx : TaskMatrix) (c : Str) (p : Int)
    (h : MatWF mx) :
    (ts.foldl TaskMatrix.addTask mx).subscriptConst c p =
      mx.subscriptConst c p ++
        ts.filter (fun t => effCat t == c && t.metadata.priority == p) := by
  induction ts generalizing mx with
  | nil => simp
  | cons t ts ih =>
    rw [List.foldl_cons, ih _ (addTask_wf mx t h), subscriptConst_addTask mx t c p h]
    by_cases hcond : effCat t = c ∧ t.metadata.priority = p
    · simp [hcond, hcond.1, hcond.2, List.filter_cons]
    · have : (effCat t == c && t.metadata.priority == p) = false := by
        rcases not_and_or.1 hcond with h' | h' <;> simp [h'] <;> simp_all
      simp [hcond, List.filter_cons, this]

/-! ## C8: compound-key lookup -/

/-- C8: the read-only compound lookup is exactly bucket lookup.  On a matrix
built by filing any snapshot of records, `subscriptConst (c, p)` returns
precisely the records filed under category key `c` with priority `p`, in
insertion order — in particular the empty sequence when that compound key
received nothing; and on an arbitrary matrix it returns the stored list, or
the empty list when either level of the key is absent.  The const subscript
operator returns a reference to a static empty vector in the absent cases and
never inserts, so the matrix itself is untouched by a lookup. -/
theorem c8_lookup (ts : List Task) (mx : TaskMatrix) (c : Str) (p : Int)
    (inner : List (Int × List Task)) (bucket : List Task) :
    ((buildMatrix ts).subscriptConst c p =
       ts.filter (fun t => effCat t == c && t.metadata.priority == p)) ∧
    (findKey mx.matrix c = none → mx.subscriptConst c p = []) ∧
    (findKey mx.matrix c = some inner → findKey inner p = none →
       mx.subscriptConst c p = []) ∧
    (findKey mx.matrix c = some inner → findKey inner p = some bucket →
       mx.subscriptConst c p = bucket) := by
  refine ⟨?_, ?_, ?_, ?_⟩
  · have h := buildMatrix_aux ts emptyMatrix c p (by constructor <;> simp [emptyMatrix])
    simpa [buildMatrix, emptyMatrix, subscriptConst_eq, findKey] using h
  · intro h; rw [subscriptConst_eq, h]; simp [findKey]
  · intro h1 h2; rw [subscriptConst_eq, h1]; simp [h2]
  · intro h1 h2; rw [subscriptConst_eq, h1]; simp [h2]

def c8Task : Task :=
  { id := 3, title := lit "w", description := [], status := .Pending,
    metadata := { created_at := 0, updated_at := 0, completed_at := none,
                  category := lit "Work", priority := 2 } }

theorem c8_witness :
    (buildMatrix [c8Task]).subscriptConst (lit "Work") 2 = [c8Task] ∧
    (emptyMatrix.subscriptConst (lit "Work") 2 = []) := by
  refine ⟨?_, ?_⟩
  · have h := (c8_lookup [c8Task] emptyMatrix (lit "Work") 2 [] []).1
    rw [h]; decide
  · exact (c8_lookup [] emptyMatrix (lit "Work") 2 [] []).2.1 (by decide)

/-! ## C7: the two default categories -/

/-- C7: a record whose category is the empty string is filed by the index
under the literal category key "Default" (its bucket at the record's priority
gains exactly that record), and is never filed under "General"; while a record
constructed by the store carries category "General", which is neither empty
nor "Default".  The two defaults are distinct and both observable. -/
theorem c7_default_categories (mx : TaskMatrix) (t : Task) (p : Int)
    (id : Int) (ti de : Str) (st : TaskStatus) (now : Nat)
    (hwf : MatWF mx) (hcat : t.metadata.category = []) :
    ((mx.addTask t).subscriptConst (lit "Default") t.metadata.priority =
       mx.subscriptConst (lit "Default") t.metadata.priority ++ [t]) ∧
    ((mx.addTask t).subscriptConst (lit "General") p =
       mx.subscriptConst (lit "General") p) ∧
    (Task.make id ti de st now).metadata.category = lit "General" ∧
    (Task.make id ti de st now).metadata.category ≠ lit "Default" ∧
    (Task.make id ti de st now).metadata.category ≠ [] := by
  have heff : effCat t = lit "Default" := by simp [effCat, hcat]
  refine ⟨?_, ?_, rfl, by show (lit "General" : Str) ≠ lit "Default"; decide,
    by show (lit "General" : Str) ≠ []; decide⟩
  · rw [subscriptConst_addTask mx t _ _ hwf]
    simp [heff]
  · rw [subscriptConst_addTask mx t _ _ hwf]
    have : ¬ (effCat t = lit "General" ∧ t.metadata.priority = p) := by
      rw [heff]; rintro ⟨h, -⟩; revert h; decide
    simp [this]

def c7Task : Task :=
  { id := 9, title := lit "e", description := [], status := .Pending,
    metadata := { created_at := 0, updated_at := 0, completed_at := none,
                  category := [], priority := 5 } }

theorem c7_witness :
    (emptyMatrix.addTask c7Task).subscriptConst (lit "Default") 5 = [c7Task] ∧
    (emptyMatrix.addTask c7Task).subscriptConst (lit "General") 5 = [] := by
  have h := c7_default_categories emptyMatrix c7Task 5 1 (lit "x") [] .Pending 0
    (by constructor <;> simp [emptyMatrix]) (by decide)
  refine ⟨?_, ?_⟩
  · have := h.1
    simpa [emptyMatrix, subscriptConst_eq, findKey, c7Task] using this
  · have := h.2.1
    simpa [emptyMatrix, subscriptConst_eq, findKey] using this

/-! ## C6: the completion timestamp -/

/-- C6: `setStatus s` stamps `completed_at` with the current clock reading
exactly when `s` is Completed and leaves it untouched otherwise; consequently a
later transition away from Completed keeps the previously stamped value. -/
theorem c6_completed_at_stamping (t : Task) (s : TaskStatus) (now n1 n2 : Nat) :
    ((t.setStatus s now).2.metadata.completed_at =
      if s = TaskStatus.Completed then some now else t.metadata.completed_at) ∧
    (((t.setStatus .Completed n1).2.setStatus s n2).2.metadata.completed_at =
      some (if s = TaskStatus.Completed then n2 else n1)) := by
  by_cases h : s = TaskStatus.Completed <;> simp [Task.setStatus, h]

/-! ## C10: record equality -/

/-- C10: `Task::operator==` holds exactly when `id`, `title` and `status`
agree; two tasks differing only in description, category, priority or any
timestamp compare equal. -/
theorem c10_equality_fields (a b : Task) (id : Int) (ti d1 d2 : Str)
    (st : TaskStatus) (m1 m2 : TaskMetadata) :
    (Task.beq a b = true ↔ a.id = b.id ∧ a.title = b.title ∧ a.status = b.status) ∧
    Task.beq ⟨id, ti, d1, st, m1⟩ ⟨id, ti, d2, st, m2⟩ = true := by
  unfold Task.beq
  simp [and_assoc]

/-! ## A concrete civil-time collaborator

A simple `Clock` used by the concrete counterexamples and witnesses: correct
(mutually inverse and in `TmOK` range) for times within the first day of 1970,
which is all the concrete inputs use. -/

def demoClock : Clock where
  localtime s := ⟨1970, 1, 1, s / 3600, s / 60 % 60, s % 60⟩
  mktime tm := tm.hour * 3600 + tm.tmin * 60 + tm.sec

/-! ## C2: no partial mutation on decode failure -/

/-- The store used by the C2 and C5 counterexamples. -/
def c2Store : TaskManager :=
  { tasks := [Task.make 1 (lit "A") [] .Pending 0], next_id := 7 }

/-- C2 (counterexample): decoding the text `\x7b"next_id": 3\x7d` fails with
InvalidFormat (no `tasks` array), yet the store's next-identity counter has
already been overwritten from 7 to 3 — `fromJsonString` commits the header
before validating the rest, so the claim as stated is false. -/
theorem c2_counterexample :
    (TaskManager.fromJsonString demoClock 0 c2Store (lit "\x7b\"next_id\": 3\x7d")).1 =
      .error .InvalidFormat ∧
    (TaskManager.fromJsonString demoClock 0 c2Store (lit "\x7b\"next_id\": 3\x7d")).2.next_id = 3 ∧
    c2Store.next_id = 7 :=
  ⟨rfl, rfl, rfl⟩

/-- C2 (amended): decode failure does not in general preserve the store:
the header's `next_id` is committed as soon as it parses, and a mid-array task
failure leaves the collection cleared with only the already-parsed prefix.
The store is returned exactly unchanged in the failure case in which nothing
was committed: when the document contains no `"next_id":` marker and no
`"tasks":` marker, the decode fails with InvalidFormat and the record
collection and next-identity counter are exactly what they were before. -/
theorem c2_amended (clock : Clock) (now : Nat) (m : TaskManager) (s : Str)
    (h1 : firstOcc (keyPat (lit "next_id")) s = none)
    (h2 : firstOcc (lit "\"tasks\":") s = none) :
    TaskManager.fromJsonString clock now m s = (.error .InvalidFormat, m) := by
  have hv : findValueM s (lit "next_id") = [] := by
    unfold findValueM
    have : keyPat (lit "next_id") = lit "\"next_id\":" := by decide
    rw [this] at h1 ⊢
    rw [h1]
  unfold TaskManager.fromJsonString
  rw [hv]
  simp [h2]

theorem c2_witness :
    TaskManager.fromJsonString demoClock 0 c2Store (lit "hello") =
      (.error .InvalidFormat, c2Store) :=
  c2_amended demoClock 0 c2Store (lit "hello") (by decide) (by decide)

/-! ## C5: the encode/decode round trip (counterexample part) -/

/-- A store whose single task's title contains `]`: the collection decoder's
`find("]")` takes it for the end of the task array. -/
def c5Store : TaskManager :=
  { tasks := [{ id := 1, title := lit "a]b", description := [], status := .Pending,
                metadata := { created_at := 0, updated_at := 0, completed_at := none,
                              category := lit "General", priority := 0 } }],
    next_id := 2 }

/-- C5 (counterexample): encoding `c5Store` and decoding the text into a fresh
store succeeds but silently drops the record — the decoded store has no tasks
at all, so the record-for-record field equality claimed for every store fails.
(The `]` of the title is taken for the array terminator; `\x7b`, `\x7d` and raw
control characters in string fields, and an empty category, break the round
trip in the same way.) -/
theorem c5_counterexample :
    (TaskManager.fromJsonString demoClock 0 emptyStore
        (c5Store.toJsonString demoClock)).1 = .ok true ∧
    (TaskManager.fromJsonString demoClock 0 emptyStore
        (c5Store.toJsonString demoClock)).2.tasks = [] ∧
    c5Store.tasks.length = 1 :=
  ⟨rfl, rfl, rfl⟩

/-! ## Occurrence analysis for the key-search scan

`findValue` locates `"key":` by plain substring search.  To characterise it on
codec-produced documents we track where a pattern can start.  `Clean pat u v`
says no occurrence of `pat` starts within the `u` part of `u ++ v` (it may
start in `v`, and an occurrence starting in `u` may run into `v`). -/

def Clean (pat u v : Str) : Prop := ∀ i < u.length, ¬ pat <+: (u ++ v).drop i

theorem clean_nil (pat v : Str) : Clean pat [] v := by
  intro i hi
  simp at hi

theorem clean_cons (pat : Str) (c : Char) (u v : Str)
    (h0 : ¬ pat <+: c :: (u ++ v)) (h : Clean pat u v) : Clean pat (c :: u) v := by
  intro i hi
  cases i with
  | zero => simpa using h0
  | succ j =>
    simp only [List.cons_append, List.drop_succ_cons]
    exact h j (by simpa using hi)

theorem clean_append (pat u w v : Str)
    (h1 : Clean pat u (w ++ v)) (h2 : Clean pat w v) : Clean pat (u ++ w) v := by
  intro i hi
  rw [List.append_assoc]
  by_cases hc : i < u.length
  · exact h1 i hc
  · have hj : i - u.length < w.length := by
      rw [List.length_append] at hi; omega
    have hij : i = u.length + (i - u.length) := by omega
    rw [hij, List.drop_append]
    exact h2 _ hj

theorem clean_quoteFree (pat u v : Str)
    (hq : ∀ c ∈ u, c ≠ '"') (hp : pat.head? = some '"') : Clean pat u v := by
  intro i hi hpre
  obtain ⟨t, ht⟩ := hpre
  have hhead : ((u ++ v).drop i).head? = some '"' := by
    rw [← ht]
    cases pat with
    | nil => simp at hp
    | cons p ps => simp at hp; simp [hp]
  rw [List.head?_drop] at hhead
  have hio : (u ++ v)[i]? = u[i]? := by
    rw [List.getElem?_append, if_pos hi]
  rw [hio, List.getElem?_eq_getElem hi] at hhead
  exact hq _ (List.getElem_mem hi) (by injection hhead)

theorem firstOcc_nil_of_ne (pat : Str) (hpat : pat ≠ []) : firstOcc pat [] = none := by
  cases pat with
  | nil => exact absurd rfl hpat
  | cons p ps => rfl

theorem firstOcc_cons (pat : Str) (c : Char) (rest : Str) :
    firstOcc pat (c :: rest) =
      if pat.isPrefixOf (c :: rest) then some 0
      else (firstOcc pat rest).map (· + 1) := rfl

theorem firstOcc_append_clean (pat u v : Str) (h : Clean pat u v) (hpat : pat ≠ []) :
    firstOcc pat (u ++ v) = (firstOcc pat v).map (u.length + ·) := by
  induction u with
  | nil =>
    simp only [List.nil_append, List.length_nil]
    cases firstOcc pat v <;> simp
  | cons c u' ih =>
    have h0 : ¬ pat.isPrefixOf (c :: (u' ++ v)) = true := by
      rw [List.isPrefixOf_iff_prefix]
      exact h 0 (by simp)
    have h' : Clean pat u' v := by
      intro i hi
      have := h (i + 1) (by simpa using Nat.succ_lt_succ hi)
      simpa using this
    show firstOcc pat (c :: (u' ++ v)) = _
    rw [firstOcc_cons, if_neg h0, ih h']
    rcases firstOcc pat v with _ | x
    · simp
    · simp
      omega

theorem firstOcc_found (pat u v : Str) (h : Clean pat u v) (hv : pat <+: v)
    (hpat : pat ≠ []) : firstOcc pat (u ++ v) = some u.length := by
  rw [firstOcc_append_clean pat u v h hpat]
  have hv0 : firstOcc pat v = some 0 := by
    cases v with
    | nil =>
      exact absurd (List.prefix_nil.1 hv) hpat
    | cons c rest =>
      unfold firstOcc
      rw [if_pos (List.isPrefixOf_iff_prefix.2 hv)]
  rw [hv0]
  simp

theorem firstOcc_none (pat u : Str) (h : Clean pat u []) (hpat : pat ≠ []) :
    firstOcc pat u = none := by
  have := firstOcc_append_clean pat u [] h hpat
  rw [List.append_nil] at this
  rw [this, firstOcc_nil_of_ne pat hpat]
  rfl

/-! Pattern-shape lemmas: where `"key":` cannot start. -/

theorem not_prefix_val (k v : Str) (d : Char) (r : Str)
    (hk : ∀ c ∈ k, c ≠ '"') (hv : ∀ c ∈ v, c ≠ '"') (hd : d ≠ ':') :
    ¬ (k ++ ['"', ':']) <+: (v ++ '"' :: d :: r) := by
  induction k generalizing v with
  | nil =>
    cases v with
    | nil =>
      intro hpre
      simp only [List.nil_append] at hpre
      rw [List.cons_prefix_cons] at hpre
      rw [List.cons_prefix_cons] at hpre
      exact hd hpre.2.1.symm
    | cons cv v' =>
      intro hpre
      simp only [List.nil_append, List.cons_append] at hpre
      rw [List.cons_prefix_cons] at hpre
      exact hv cv (by simp) hpre.1.symm
  | cons ck k' ih =>
    cases v with
    | nil =>
      intro hpre
      simp only [List.cons_append, List.nil_append] at hpre
      rw [List.cons_prefix_cons] at hpre
      exact hk ck (by simp) hpre.1
    | cons cv v' =>
      intro hpre
      simp only [List.cons_append] at hpre
      rw [List.cons_prefix_cons] at hpre
      exact ih v' (fun c hc => hk c (by simp [hc])) (fun c hc => hv c (by simp [hc]))
        hpre.2

theorem not_prefix_other_key (k k' : Str) (r : Str)
    (hk : ∀ c ∈ k, c ≠ '"') (hk' : ∀ c ∈ k', c ≠ '"') (hne : k ≠ k') :
    ¬ (k ++ ['"', ':']) <+: (k' ++ '"' :: ':' :: r) := by
  induction k generalizing k' with
  | nil =>
    cases k' with
    | nil => exact absurd rfl hne
    | cons c rest =>
      intro hpre
      simp only [List.nil_append, List.cons_append] at hpre
      rw [List.cons_prefix_cons] at hpre
      exact hk' c (by simp) hpre.1.symm
  | cons ck k2 ih =>
    cases k' with
    | nil =>
      intro hpre
      simp only [List.cons_append, List.nil_append] at hpre
      rw [List.cons_prefix_cons] at hpre
      exact hk ck (by simp) hpre.1
    | cons c' rest' =>
      intro hpre
      simp only [List.cons_append] at hpre
      rw [List.cons_prefix_cons] at hpre
      have hne2 : k2 ≠ rest' := fun e => hne (by rw [hpre.1, e])
      exact ih rest' (fun c hc => hk c (by simp [hc])) (fun c hc => hk' c (by simp [hc]))
        hne2 hpre.2

/-! ## Rendered record documents

A record document is a flat object of `"key": value` fields, each value either
a double-quoted string or a bare token (§ decode grammar).  `renderObj ind fs`
is the exact text layout `Task::toJson` produces (with `ind = ""`), and the
layout of a task block inside `TaskManager::toJsonString` (with `ind = "    "`,
the four-space indentation). -/

inductive FieldVal
  | str (s : Str)
  | bare (s : Str)
deriving DecidableEq, Repr

def renderVal : FieldVal → Str
  | .str s => '"' :: s ++ ['"']
  | .bare s => s

/-- The payload the decoder is expected to extract from a field. -/
def valContent : FieldVal → Str
  | .str s => s
  | .bare s => s

def renderField (f : Str × FieldVal) : Str :=
  keyPat f.1 ++ ' ' :: renderVal f.2

def fieldSep (ind : Str) : Str := ',' :: '\n' :: ind ++ lit "  "

def fieldsText (ind : Str) : List (Str × FieldVal) → Str
  | [] => []
  | [f] => renderField f
  | f :: rest => renderField f ++ fieldSep ind ++ fieldsText ind rest

def renderObj (ind : Str) (fs : List (Str × FieldVal)) : Str :=
  '\x7b' :: '\n' :: ind ++ lit "  " ++ fieldsText ind fs ++ '\n' :: ind ++ ['\x7d']

/-- A key of the fixed field vocabulary: non-empty, letters and underscore. -/
def KeyOK (k : Str) : Prop := k ≠ [] ∧ ∀ c ∈ k, c.isAlpha = true ∨ c = '_'

instance (k : Str) : Decidable (KeyOK k) := by unfold KeyOK; infer_instance

/-- Scanner-safe value payloads: a string body free of quotes and backslashes
(its escaped form is itself), a bare token free of stop characters and
whitespace. -/
def ValWF : FieldVal → Prop
  | .str s => ∀ c ∈ s, c ≠ '"' ∧ c ≠ '\\'
  | .bare s => s ≠ [] ∧ ∀ c ∈ s, isBareStop c = false ∧ isSpace c = false ∧ c ≠ '"'

instance (v : FieldVal) : Decidable (ValWF v) := by
  cases v <;> (unfold ValWF; infer_instance)

def IndOK (ind : Str) : Prop := ∀ c ∈ ind, c = ' '

instance (ind : Str) : Decidable (IndOK ind) := by unfold IndOK; infer_instance

def ObjWF (fs : List (Str × FieldVal)) : Prop :=
  (fs.map Prod.fst).Nodup ∧ ∀ f ∈ fs, KeyOK f.1 ∧ ValWF f.2

instance (fs : List (Str × FieldVal)) : Decidable (ObjWF fs) := by
  unfold ObjWF; infer_instance

theorem keyChar_props (c : Char) (h : c.isAlpha = true ∨ c = '_') :
    c ≠ '"' ∧ c ≠ ':' ∧ c ≠ ',' ∧ c ≠ '\n' ∧ c ≠ ' ' := by
  rcases h with h | rfl
  · refine ⟨?_, ?_, ?_, ?_, ?_⟩ <;> (intro he; subst he; revert h; decide)
  · decide

theorem keyOK_quoteFree (k : Str) (hk : KeyOK k) : ∀ c ∈ k, c ≠ '"' :=
  fun c hc => (keyChar_props c (hk.2 c hc)).1

theorem clean_congr (pat u1 v1 u2 v2 : Str) (he : u1 ++ v1 = u2 ++ v2)
    (hl : u1.length = u2.length) (h : Clean pat u1 v1) : Clean pat u2 v2 := by
  intro i hi
  rw [← he]
  exact h i (by omega)

theorem keyPat_eq (k : Str) : keyPat k = '"' :: (k ++ ['"', ':']) := rfl

theorem keyPat_ne_nil (k : Str) : keyPat k ≠ [] := by
  rw [keyPat_eq]; simp

theorem keyPat_head (k : Str) : (keyPat k).head? = some '"' := by
  rw [keyPat_eq]; rfl

theorem not_prefix_keyPat_sep (k : Str) (hk : KeyOK k) (d : Char)
    (hd : d = ',' ∨ d = '\n') (r : Str) : ¬ keyPat k <+: '"' :: d :: r := by
  rw [keyPat_eq]
  intro hpre
  rw [List.cons_prefix_cons] at hpre
  obtain ⟨k0, krest, hk0⟩ : ∃ k0 krest, k = k0 :: krest := by
    cases k with
    | nil => exact absurd rfl hk.1
    | cons a b => exact ⟨a, b, rfl⟩
  have h2 := hpre.2
  rw [hk0] at h2
  simp only [List.cons_append] at h2
  rw [List.cons_prefix_cons] at h2
  have hp := keyChar_props k0 (hk.2 k0 (by rw [hk0]; simp))
  rcases hd with rfl | rfl
  · exact hp.2.2.1 h2.1
  · exact hp.2.2.2.1 h2.1

theorem clean_keyPat_strVal (k : Str) (hk : KeyOK k) (body : Str)
    (hb : ∀ c ∈ body, c ≠ '"') (d : Char) (hd : d = ',' ∨ d = '\n') (r : Str) :
    Clean (keyPat k) ('"' :: body ++ ['"']) (d :: r) := by
  have hd' : d ≠ ':' := by rcases hd with rfl | rfl <;> decide
  apply clean_cons
  · intro hpre
    rw [keyPat_eq, List.cons_prefix_cons] at hpre
    obtain ⟨-, h2⟩ := hpre
    have h2' : k ++ ['"', ':'] <+: body ++ '"' :: d :: r := by simpa using h2
    exact not_prefix_val k body d r (keyOK_quoteFree k hk) hb hd' h2' 
  · apply clean_append
    · exact clean_quoteFree _ body _ hb (keyPat_head k)
    · apply clean_cons
      · simpa using not_prefix_keyPat_sep k hk d hd r
      · exact clean_nil _ _



theorem not_prefix_of_head_ne (pat : Str) (a b : Char) (X : Str)
    (hp : pat.head? = some a) (hne : b ≠ a) : ¬ pat <+: b :: X := by
  intro h
  cases pat with
  | nil => simp at hp
  | cons p ps =>
    rw [List.cons_prefix_cons] at h
    simp at hp
    exact hne (h.1 ▸ hp ▸ rfl)

theorem not_prefix_keyPat_stop (k : Str) (hk : KeyOK k) (d : Char)
    (hd : d = ',' ∨ d = '\n' ∨ d = ':') (r : Str) : ¬ keyPat k <+: '"' :: d :: r := by
  rw [keyPat_eq]
  intro hpre
  rw [List.cons_prefix_cons] at hpre
  obtain ⟨k0, krest, hk0⟩ : ∃ k0 krest, k = k0 :: krest := by
    cases k with
    | nil => exact absurd rfl hk.1
    | cons a b => exact ⟨a, b, rfl⟩
  have h2 := hpre.2
  rw [hk0] at h2
  simp only [List.cons_append] at h2
  rw [List.cons_prefix_cons] at h2
  have hp := keyChar_props k0 (hk.2 k0 (by rw [hk0]; simp))
  rcases hd with rfl | rfl | rfl
  · exact hp.2.2.1 h2.1
  · exact hp.2.2.2.1 h2.1
  · exact hp.2.1 h2.1

theorem valWF_renderVal_clean (k : Str) (hk : KeyOK k) (v : FieldVal) (hv : ValWF v)
    (d : Char) (hd : d = ',' ∨ d = '\n') (r : Str) :
    Clean (keyPat k) (renderVal v) (d :: r) := by
  cases v with
  | str s => exact clean_keyPat_strVal k hk s (fun c hc => (hv c hc).1) d hd r
  | bare s => exact clean_quoteFree _ _ _ (fun c hc => (hv.2 c hc).2.2) (keyPat_head k)

theorem clean_field_off (k : Str) (hk : KeyOK k) (f : Str × FieldVal)
    (hfk : KeyOK f.1) (hfv : ValWF f.2) (hne : k ≠ f.1)
    (d : Char) (hd : d = ',' ∨ d = '\n') (r : Str) :
    Clean (keyPat k) (renderField f) (d :: r) := by
  apply clean_congr (keyPat k)
    ('"' :: ((f.1 ++ ['"', ':']) ++ (' ' :: renderVal f.2))) (d :: r)
  · simp [renderField, keyPat_eq]
  · simp [renderField, keyPat_eq]
  apply clean_cons
  · intro hpre
    rw [keyPat_eq, List.cons_prefix_cons] at hpre
    obtain ⟨-, h2⟩ := hpre
    have h2' : k ++ ['"', ':'] <+: f.1 ++ '"' :: ':' :: (' ' :: renderVal f.2 ++ d :: r) := by
      simpa using h2
    exact not_prefix_other_key k f.1 _ (keyOK_quoteFree k hk) (keyOK_quoteFree f.1 hfk)
      hne h2'
  apply clean_append
  · apply clean_append
    · exact clean_quoteFree _ _ _ (keyOK_quoteFree f.1 hfk) (keyPat_head k)
    · apply clean_cons
      · have := not_prefix_keyPat_stop k hk ':' (by simp) (' ' :: renderVal f.2 ++ d :: r)
        simpa using this
      apply clean_cons
      · exact not_prefix_of_head_ne _ '"' ':' _ (keyPat_head k) (by decide)
      · exact clean_nil _ _
  · apply clean_cons
    · exact not_prefix_of_head_ne _ '"' ' ' _ (keyPat_head k) (by decide)
    · exact valWF_renderVal_clean k hk f.2 hfv d hd r

theorem clean_field_off' (k : Str) (hk : KeyOK k) (f : Str × FieldVal)
    (hfk : KeyOK f.1) (hfv : ValWF f.2) (hne : k ≠ f.1) (v : Str)
    (hv : v.head? = some ',' ∨ v.head? = some '\n') :
    Clean (keyPat k) (renderField f) v := by
  obtain ⟨d, r, rfl, hd⟩ : ∃ d r, v = d :: r ∧ (d = ',' ∨ d = '\n') := by
    rcases hv with h | h <;>
      (cases v with
       | nil => simp at h
       | cons d r => exact ⟨d, r, rfl, by simp at h; simp [h]⟩)
  exact clean_field_off k hk f hfk hfv hne d hd r

theorem sep_quoteFree (ind : Str) (hind : IndOK ind) :
    ∀ c ∈ fieldSep ind, c ≠ '"' := by
  intro c hc he
  subst he
  simp only [fieldSep] at hc
  rcases List.mem_cons.1 hc with h | h
  · exact absurd h (by decide)
  rcases List.mem_cons.1 h with h | h
  · exact absurd h (by decide)
  rcases List.mem_append.1 h with h | h
  · exact absurd (hind _ h) (by decide)
  · have he2 : lit "  " = [' ', ' '] := rfl
    rw [he2] at h
    simp at h

theorem clean_fieldsText (k : Str) (hk : KeyOK k) (ind : Str) (hind : IndOK ind)
    (fs : List (Str × FieldVal)) (hfs : ∀ f ∈ fs, KeyOK f.1 ∧ ValWF f.2)
    (hoff : ∀ f ∈ fs, f.1 ≠ k) (v : Str)
    (hv : v.head? = some ',' ∨ v.head? = some '\n') :
    Clean (keyPat k) (fieldsText ind fs) v := by
  induction fs with
  | nil => exact clean_nil _ _
  | cons f rest ih =>
    cases rest with
    | nil =>
      show Clean _ (renderField f) v
      exact clean_field_off' k hk f (hfs f (by simp)).1 (hfs f (by simp)).2
        (fun e => hoff f (by simp) e.symm) v hv
    | cons g rest2 =>
      show Clean _ (renderField f ++ fieldSep ind ++ fieldsText ind (g :: rest2)) v
      apply clean_append
      · apply clean_append
        · apply clean_field_off' k hk f (hfs f (by simp)).1 (hfs f (by simp)).2
            (fun e => hoff f (by simp) e.symm)
          left
          simp [fieldSep]
        · exact clean_quoteFree _ _ _ (sep_quoteFree ind hind) (keyPat_head k)
      · exact ih (fun f hf => hfs f (by simp [hf])) (fun f hf => hoff f (by simp [hf]))

/-! ## Scan lemmas on safe content -/

theorem scanStringBody_cons (c : Char) (rest : Str) :
    scanStringBody (c :: rest) =
      if c = '"' then []
      else if c = '\\' then
        match rest with
        | [] => [c]
        | c2 :: rest2 => c :: c2 :: scanStringBody rest2
      else c :: scanStringBody rest := by
  cases rest with
  | nil => rw [scanStringBody.eq_2]
  | cons c2 rest2 => rw [scanStringBody.eq_3]

theorem scanStringBody_exact (s : Str) (hs : ∀ c ∈ s, c ≠ '"' ∧ c ≠ '\\') (r : Str) :
    scanStringBody (s ++ '"' :: r) = s := by
  induction s with
  | nil =>
    rw [List.nil_append, scanStringBody_cons]
    simp
  | cons c s' ih =>
    have hc := hs c (by simp)
    rw [List.cons_append, scanStringBody_cons, if_neg hc.1, if_neg hc.2,
      ih (fun x hx => hs x (by simp [hx]))]

theorem unescape_cons (c : Char) (rest : Str) (hc : c ≠ '\\') :
    unescapeJsonString (c :: rest) = c :: unescapeJsonString rest := by
  cases rest with
  | nil => rw [unescapeJsonString.eq_2, if_neg hc]
  | cons c2 rest2 => rw [unescapeJsonString.eq_3, if_neg hc]

theorem unescape_id (s : Str) (hs : ∀ c ∈ s, c ≠ '\\') : unescapeJsonString s = s := by
  induction s with
  | nil => rfl
  | cons c s' ih =>
    rw [unescape_cons c s' (hs c (by simp)), ih (fun x hx => hs x (by simp [hx]))]

theorem takeWhile_append_exact (p : Char → Bool) (a b : Str)
    (ha : ∀ c ∈ a, p c = true) (hb : ∀ x, b.head? = some x → p x = false) :
    (a ++ b).takeWhile p = a := by
  induction a with
  | nil =>
    cases b with
    | nil => rfl
    | cons x b' =>
      simp only [List.nil_append, List.takeWhile_cons]
      rw [hb x rfl]
      rfl
  | cons c a' ih =>
    simp only [List.cons_append, List.takeWhile_cons]
    rw [ha c (by simp)]
    simp only [if_true]
    rw [ih (fun x hx => ha x (by simp [hx]))]

theorem dropWhile_eq_self_of (p : Char → Bool) (t : Str)
    (ht : ∀ x, t.head? = some x → p x = false) : t.dropWhile p = t := by
  cases t with
  | nil => rfl
  | cons x t' =>
    rw [List.dropWhile_cons, ht x rfl]
    simp

theorem trimWs_eq_self (s : Str) (h : ∀ c ∈ s, isTrimWs c = false) : trimWs s = s := by
  unfold trimWs
  rw [dropWhile_eq_self_of _ s (fun x hx => h x (by cases s; simp at hx; simp at hx; simp [hx]))]
  rw [dropWhile_eq_self_of _ s.reverse
    (fun x hx => h x (by
      cases hr : s.reverse with
      | nil => rw [hr] at hx; simp at hx
      | cons y t =>
        rw [hr] at hx
        simp at hx
        subst hx
        have : y ∈ s.reverse := by rw [hr]; simp
        exact List.mem_reverse.1 this))]
  exact List.reverse_reverse s

/-! ## Locating a field in a rendered object -/

theorem findKey_split {κ β : Type} [DecidableEq κ] (l : List (κ × β)) (k : κ) (v : β)
    (h : findKey l k = some v) :
    ∃ l₁ l₂, l = l₁ ++ (k, v) :: l₂ ∧ ∀ f ∈ l₁, f.1 ≠ k := by
  induction l with
  | nil => simp [findKey] at h
  | cons a rest ih =>
    obtain ⟨a1, a2⟩ := a
    by_cases hk : k = a1
    · subst hk
      rw [findKey_cons_self] at h
      injection h with h
      subst h
      exact ⟨[], rest, rfl, by simp⟩
    · rw [findKey_cons_ne _ _ _ _ hk] at h
      obtain ⟨l₁, l₂, rfl, hoff⟩ := ih h
      refine ⟨(a1, a2) :: l₁, l₂, rfl, ?_⟩
      intro f hf
      rcases List.mem_cons.1 hf with rfl | hf
      · exact fun e => hk e.symm
      · exact hoff f hf

theorem findKey_none_keys {κ β : Type} [DecidableEq κ] (l : List (κ × β)) (k : κ)
    (h : findKey l k = none) : ∀ f ∈ l, f.1 ≠ k := by
  induction l with
  | nil => simp
  | cons a rest ih =>
    obtain ⟨a1, a2⟩ := a
    by_cases hk : k = a1
    · subst hk; rw [findKey_cons_self] at h; cases h
    · rw [findKey_cons_ne _ _ _ _ hk] at h
      intro f hf
      rcases List.mem_cons.1 hf with rfl | hf
      · exact fun e => hk e.symm
      · exact ih h f hf

def objOpen (ind : Str) : Str := '\x7b' :: '\n' :: (ind ++ lit "  ")

def preText (ind : Str) (l₁ : List (Str × FieldVal)) : Str :=
  if l₁ = [] then [] else fieldsText ind l₁ ++ fieldSep ind

def afterText (ind : Str) (l₂ : List (Str × FieldVal)) : Str :=
  (if l₂ = [] then [] else fieldSep ind ++ fieldsText ind l₂) ++ '\n' :: ind ++ ['\x7d']

theorem fieldsText_singleton (ind : Str) (f : Str × FieldVal) :
    fieldsText ind [f] = renderField f := rfl

theorem fieldsText_cons_ne (ind : Str) (f : Str × FieldVal)
    (rest : List (Str × FieldVal)) (h : rest ≠ []) :
    fieldsText ind (f :: rest) = renderField f ++ fieldSep ind ++ fieldsText ind rest := by
  cases rest with
  | nil => exact absurd rfl h
  | cons g r2 => rfl

theorem fieldsText_append_ne (ind : Str) (l₁ l₂ : List (Str × FieldVal))
    (h1 : l₁ ≠ []) (h2 : l₂ ≠ []) :
    fieldsText ind (l₁ ++ l₂) = fieldsText ind l₁ ++ fieldSep ind ++ fieldsText ind l₂ := by
  induction l₁ with
  | nil => exact absurd rfl h1
  | cons f rest ih =>
    cases rest with
    | nil =>
      rw [List.singleton_append, fieldsText_cons_ne ind f l₂ h2, fieldsText_singleton]
    | cons g r2 =>
      have hne : (g :: r2) ++ l₂ ≠ [] := by simp
      rw [List.cons_append, fieldsText_cons_ne ind f _ hne, ih (by simp),
        fieldsText_cons_ne ind f (g :: r2) (by simp)]
      simp [List.append_assoc]

theorem renderObj_decomp (ind : Str) (l₁ l₂ : List (Str × FieldVal))
    (k : Str) (v : FieldVal) :
    renderObj ind (l₁ ++ (k, v) :: l₂) =
      (objOpen ind ++ preText ind l₁) ++
        (keyPat k ++ (' ' :: (renderVal v ++ afterText ind l₂))) := by
  by_cases h1 : l₁ = [] <;> by_cases h2 : l₂ = []
  · subst h1; subst h2
    simp [renderObj, objOpen, preText, afterText, fieldsText_singleton, renderField,
      List.append_assoc]
  · subst h1
    rw [List.nil_append]
    simp only [renderObj]
    rw [fieldsText_cons_ne ind _ l₂ h2]
    simp [objOpen, preText, afterText, h2, renderField, List.append_assoc]
  · subst h2
    simp only [renderObj]
    rw [fieldsText_append_ne ind l₁ [(k, v)] h1 (by simp), fieldsText_singleton]
    simp [objOpen, preText, afterText, h1, renderField, List.append_assoc]
  · simp only [renderObj]
    rw [fieldsText_append_ne ind l₁ ((k, v) :: l₂) h1 (by simp),
      fieldsText_cons_ne ind _ l₂ h2]
    simp [objOpen, preText, afterText, h1, h2, renderField, List.append_assoc]

theorem objOpen_quoteFree (ind : Str) (hind : IndOK ind) :
    ∀ c ∈ objOpen ind, c ≠ '"' := by
  intro c hc he
  subst he
  simp only [objOpen] at hc
  rcases List.mem_cons.1 hc with h | h
  · exact absurd h (by decide)
  rcases List.mem_cons.1 h with h | h
  · exact absurd h (by decide)
  rcases List.mem_append.1 h with h | h
  · exact absurd (hind _ h) (by decide)
  · have he2 : lit "  " = [' ', ' '] := rfl
    rw [he2] at h
    simp at h

theorem clean_preText (k : Str) (hk : KeyOK k) (ind : Str) (hind : IndOK ind)
    (l₁ : List (Str × FieldVal)) (hfs : ∀ f ∈ l₁, KeyOK f.1 ∧ ValWF f.2)
    (hoff : ∀ f ∈ l₁, f.1 ≠ k) (v : Str) :
    Clean (keyPat k) (preText ind l₁) v := by
  unfold preText
  by_cases h1 : l₁ = []
  · rw [if_pos h1]; exact clean_nil _ _
  · rw [if_neg h1]
    apply clean_append
    · apply clean_fieldsText k hk ind hind l₁ hfs hoff
      left
      simp [fieldSep]
    · exact clean_quoteFree _ _ _ (sep_quoteFree ind hind) (keyPat_head k)

theorem afterText_head (ind : Str) (l₂ : List (Str × FieldVal)) :
    (afterText ind l₂).head? = some ',' ∨ (afterText ind l₂).head? = some '\n' := by
  unfold afterText
  by_cases h2 : l₂ = []
  · right; rw [if_pos h2]; rfl
  · left; rw [if_neg h2]; simp [fieldSep]

theorem isTrimWs_false_of_isSpace (c : Char) (h : isSpace c = false) :
    isTrimWs c = false := by
  unfold isSpace at h
  unfold isTrimWs
  simp only [Bool.or_eq_false_iff] at h ⊢
  exact ⟨⟨⟨h.1.1.1.1.1, h.1.1.1.1.2⟩, h.1.1.1.2⟩, h.2⟩

theorem clean_renderObj_off (k : Str) (hk : KeyOK k) (ind : Str) (hind : IndOK ind)
    (fs : List (Str × FieldVal)) (hfs : ∀ f ∈ fs, KeyOK f.1 ∧ ValWF f.2)
    (hoff : ∀ f ∈ fs, f.1 ≠ k) (v : Str) :
    Clean (keyPat k) (renderObj ind fs) v := by
  rw [show renderObj ind fs = '\x7b' :: '\n' ::
    (ind ++ (lit "  " ++ (fieldsText ind fs ++ ('\n' :: (ind ++ ['\x7d']))))) by
      simp [renderObj, List.append_assoc]]
  apply clean_cons
  · exact not_prefix_of_head_ne _ '"' '\x7b' _ (keyPat_head k) (by decide)
  apply clean_cons
  · exact not_prefix_of_head_ne _ '"' '\n' _ (keyPat_head k) (by decide)
  apply clean_append
  · apply clean_quoteFree _ _ _ _ (keyPat_head k)
    intro c hc he
    subst he
    exact absurd (hind _ hc) (by decide)
  apply clean_append
  · apply clean_quoteFree _ _ _ _ (keyPat_head k)
    intro c hc he
    subst he
    have he2 : lit "  " = [' ', ' '] := rfl
    rw [he2] at hc
    simp at hc
  apply clean_append
  · apply clean_fieldsText k hk ind hind fs hfs hoff
    right
    simp
  apply clean_cons
  · exact not_prefix_of_head_ne _ '"' '\n' _ (keyPat_head k) (by decide)
  apply clean_append
  · apply clean_quoteFree _ _ _ _ (keyPat_head k)
    intro c hc he
    subst he
    exact absurd (hind _ hc) (by decide)
  · apply clean_quoteFree _ _ _ _ (keyPat_head k)
    intro c hc he
    subst he
    simp at hc

theorem findValueM_some (s key : Str) (i : Nat) (h : firstOcc (keyPat key) s = some i) :
    findValueM s key =
      match (s.drop (i + (keyPat key).length)).dropWhile isSpace with
      | [] => []
      | c :: tail =>
        if c = '"' then scanStringBody tail
        else trimWs ((c :: tail).takeWhile (fun x => !isBareStop x)) := by
  unfold findValueM
  rw [h]

theorem findValueT_some (s key : Str) (i : Nat) (h : firstOcc (keyPat key) s = some i) :
    findValueT s key =
      match (s.drop (i + (keyPat key).length)).dropWhile isSpace with
      | [] => []
      | c :: tail =>
        if c = '"' then unescapeJsonString (scanStringBody tail)
        else trimWs ((c :: tail).takeWhile (fun x => !isBareStop x)) := by
  unfold findValueT
  rw [h]

theorem findValueM_noOcc (s key : Str) (h : firstOcc (keyPat key) s = none) :
    findValueM s key = [] := by
  unfold findValueM
  rw [h]

theorem findValueT_noOcc (s key : Str) (h : firstOcc (keyPat key) s = none) :
    findValueT s key = [] := by
  unfold findValueT
  rw [h]

theorem findValue_renderObj_none (ind : Str) (fs : List (Str × FieldVal)) (k : Str)
    (hind : IndOK ind) (hwf : ∀ f ∈ fs, KeyOK f.1 ∧ ValWF f.2) (hk : KeyOK k)
    (hfind : findKey fs k = none) :
    findValueM (renderObj ind fs) k = [] ∧ findValueT (renderObj ind fs) k = [] := by
  have hocc : firstOcc (keyPat k) (renderObj ind fs) = none :=
    firstOcc_none _ _
      (clean_renderObj_off k hk ind hind fs hwf (findKey_none_keys fs k hfind) [])
      (keyPat_ne_nil k)
  exact ⟨findValueM_noOcc _ _ hocc, findValueT_noOcc _ _ hocc⟩

theorem afterText_stop (ind : Str) (l₂ : List (Str × FieldVal)) :
    ∀ x, (afterText ind l₂).head? = some x → (!isBareStop x) = false := by
  intro x hx
  rcases afterText_head ind l₂ with h | h <;> rw [h] at hx <;>
    (injection hx with hx; rw [← hx]; rfl)

theorem findValue_renderObj_found (ind : Str) (fs : List (Str × FieldVal)) (k : Str)
    (v : FieldVal) (hind : IndOK ind) (hwf : ObjWF fs) (hk : KeyOK k)
    (hfind : findKey fs k = some v) :
    findValueM (renderObj ind fs) k = valContent v ∧
    findValueT (renderObj ind fs) k = valContent v := by
  obtain ⟨l₁, l₂, hsplit, hoff⟩ := findKey_split fs k v hfind
  subst hsplit
  have hwfv : ValWF v := (hwf.2 (k, v) (by simp)).2
  have hfsl₁ : ∀ f ∈ l₁, KeyOK f.1 ∧ ValWF f.2 := fun f hf => hwf.2 f (by simp [hf])
  have hclean : Clean (keyPat k) (objOpen ind ++ preText ind l₁)
      (keyPat k ++ (' ' :: (renderVal v ++ afterText ind l₂))) := by
    apply clean_append
    · exact clean_quoteFree _ _ _ (objOpen_quoteFree ind hind) (keyPat_head k)
    · exact clean_preText k hk ind hind l₁ hfsl₁ hoff _
  have hocc : firstOcc (keyPat k) (renderObj ind (l₁ ++ (k, v) :: l₂)) =
      some (objOpen ind ++ preText ind l₁).length := by
    rw [renderObj_decomp]
    exact firstOcc_found _ _ _ hclean (List.prefix_append _ _) (keyPat_ne_nil k)
  have hdrop : (renderObj ind (l₁ ++ (k, v) :: l₂)).drop
      ((objOpen ind ++ preText ind l₁).length + (keyPat k).length) =
      ' ' :: (renderVal v ++ afterText ind l₂) := by
    rw [renderObj_decomp,
      show (objOpen ind ++ preText ind l₁) ++
          (keyPat k ++ (' ' :: (renderVal v ++ afterText ind l₂))) =
        ((objOpen ind ++ preText ind l₁) ++ keyPat k) ++
          (' ' :: (renderVal v ++ afterText ind l₂)) by simp,
      show (objOpen ind ++ preText ind l₁).length + (keyPat k).length =
        ((objOpen ind ++ preText ind l₁) ++ keyPat k).length by rw [List.length_append, List.length_append, List.length_append]]
    exact List.drop_left _ _
  have hdw : ((renderObj ind (l₁ ++ (k, v) :: l₂)).drop
      ((objOpen ind ++ preText ind l₁).length + (keyPat k).length)).dropWhile isSpace =
      renderVal v ++ afterText ind l₂ := by
    rw [hdrop, List.dropWhile_cons, if_pos (by decide : isSpace ' ' = true)]
    apply dropWhile_eq_self_of
    intro x hx
    cases v with
    | str s =>
      simp only [renderVal, List.cons_append, List.head?_cons] at hx
      injection hx with hx
      rw [← hx]
      rfl
    | bare s =>
      obtain ⟨c0, s', rfl⟩ : ∃ c0 s', s = c0 :: s' := by
        cases s with
        | nil => exact absurd rfl hwfv.1
        | cons a b => exact ⟨a, b, rfl⟩
      simp only [renderVal, List.cons_append, List.head?_cons] at hx
      injection hx with hx
      rw [← hx]
      exact (hwfv.2 c0 (by simp)).2.1
  cases v with
  | str s =>
    have hscan : scanStringBody ((s ++ ['"']) ++ afterText ind l₂) = s := by
      rw [show (s ++ ['"']) ++ afterText ind l₂ = s ++ '"' :: afterText ind l₂ by simp]
      exact scanStringBody_exact s (fun c hc => hwfv c hc) _
    constructor
    · rw [findValueM_some _ _ _ hocc, hdw]
      show (if ('"' : Char) = '"' then
        scanStringBody ((s ++ ['"']) ++ afterText ind l₂) else _) = _
      rw [if_pos rfl, hscan]
      rfl
    · rw [findValueT_some _ _ _ hocc, hdw]
      show (if ('"' : Char) = '"' then
        unescapeJsonString (scanStringBody ((s ++ ['"']) ++ afterText ind l₂)) else _) = _
      rw [if_pos rfl, hscan, unescape_id s (fun c hc => (hwfv c hc).2)]
      rfl
  | bare s =>
    obtain ⟨c0, s', rfl⟩ : ∃ c0 s', s = c0 :: s' := by
      cases s with
      | nil => exact absurd rfl hwfv.1
      | cons a b => exact ⟨a, b, rfl⟩
    have hc0 := hwfv.2 c0 (by simp)
    have htake : ((c0 :: s') ++ afterText ind l₂).takeWhile (fun x => !isBareStop x) =
        c0 :: s' := by
      apply takeWhile_append_exact
      · intro c hc
        rw [(hwfv.2 c hc).1]
        rfl
      · exact afterText_stop ind l₂
    have htrim : trimWs (c0 :: s') = c0 :: s' := by
      apply trimWs_eq_self
      intro c hc
      exact isTrimWs_false_of_isSpace c ((hwfv.2 c hc).2.1)
    constructor
    · rw [findValueM_some _ _ _ hocc, hdw]
      show (if c0 = '"' then _
        else trimWs ((c0 :: (s' ++ afterText ind l₂)).takeWhile (fun x => !isBareStop x))) = _
      rw [if_neg hc0.2.2,
        show c0 :: (s' ++ afterText ind l₂) = (c0 :: s') ++ afterText ind l₂ by simp,
        htake, htrim]
      rfl
    · rw [findValueT_some _ _ _ hocc, hdw]
      show (if c0 = '"' then _
        else trimWs ((c0 :: (s' ++ afterText ind l₂)).takeWhile (fun x => !isBareStop x))) = _
      rw [if_neg hc0.2.2,
        show c0 :: (s' ++ afterText ind l₂) = (c0 :: s') ++ afterText ind l₂ by simp,
        htake, htrim]
      rfl

/-! ## C9: decode is independent of field order -/

theorem findKey_perm {κ β : Type} [DecidableEq κ] (l₁ l₂ : List (κ × β))
    (hperm : l₁.Perm l₂) :
    ∀ k, (l₁.map Prod.fst).Nodup → findKey l₁ k = findKey l₂ k := by
  induction hperm with
  | nil => intro k _; rfl
  | cons x h ih =>
    intro k hnd
    obtain ⟨kx, vx⟩ := x
    by_cases hkx : k = kx
    · subst hkx
      rw [findKey_cons_self, findKey_cons_self]
    · rw [findKey_cons_ne _ _ _ _ hkx, findKey_cons_ne _ _ _ _ hkx]
      refine ih k ?_
      simp only [List.map_cons, List.nodup_cons] at hnd
      exact hnd.2
  | swap x y l =>
    intro k hnd
    obtain ⟨kx, vx⟩ := x
    obtain ⟨ky, vy⟩ := y
    have hne : ky ≠ kx := by
      simp only [List.map_cons, List.nodup_cons, List.mem_cons] at hnd
      exact fun e => hnd.1 (Or.inl e)
    by_cases h1 : k = ky <;> by_cases h2 : k = kx
    · exact absurd (h1.symm.trans h2) hne
    · subst h1
      rw [findKey_cons_self, findKey_cons_ne _ _ _ _ h2, findKey_cons_self]
    · subst h2
      rw [findKey_cons_ne _ _ _ _ h1, findKey_cons_self, findKey_cons_self]
    · rw [findKey_cons_ne _ _ _ _ h1, findKey_cons_ne _ _ _ _ h2,
        findKey_cons_ne _ _ _ _ h2, findKey_cons_ne _ _ _ _ h1]
  | trans hp₁ hp₂ ih₁ ih₂ =>
    intro k hnd
    rw [ih₁ k hnd, ih₂ k (((hp₁.map Prod.fst).nodup_iff).1 hnd)]

set_option maxHeartbeats 1600000 in
/-- C9: decoding a rendered record document does not depend on the order of its
top-level fields: for every well-formed field list and every permutation of it,
`Task::fromJson` on the permuted rendering equals `Task::fromJson` on the
original rendering — the decoder extracts each field by key lookup alone. -/
theorem c9_field_order_independence (clock : Clock) (now : Nat) (ind : Str)
    (fs₁ fs₂ : List (Str × FieldVal)) (hind : IndOK ind) (hwf : ObjWF fs₁)
    (hperm : fs₁.Perm fs₂) :
    Task.fromJson clock now (renderObj ind fs₂) =
      Task.fromJson clock now (renderObj ind fs₁) := by
  have hnd₂ : (fs₂.map Prod.fst).Nodup := ((hperm.map Prod.fst).nodup_iff).1 hwf.1
  have hwf₂ : ObjWF fs₂ := ⟨hnd₂, fun f hf => hwf.2 f (hperm.mem_iff.2 hf)⟩
  have hkey : ∀ key : Str, KeyOK key →
      findValueT (renderObj ind fs₂) key = findValueT (renderObj ind fs₁) key := by
    intro key hk
    have hfk : findKey fs₂ key = findKey fs₁ key :=
      (findKey_perm fs₁ fs₂ hperm key hwf.1).symm
    cases hf : findKey fs₁ key with
    | none =>
      rw [(findValue_renderObj_none ind fs₂ key hind hwf₂.2 hk (hfk.trans hf)).2,
          (findValue_renderObj_none ind fs₁ key hind hwf.2 hk hf).2]
    | some v =>
      rw [(findValue_renderObj_found ind fs₂ key v hind hwf₂ hk (hfk.trans hf)).2,
          (findValue_renderObj_found ind fs₁ key v hind hwf hk hf).2]
  simp only [Task.fromJson]
  rw [hkey (lit "id") (by decide), hkey (lit "title") (by decide),
      hkey (lit "description") (by decide), hkey (lit "status") (by decide),
      hkey (lit "category") (by decide), hkey (lit "priority") (by decide),
      hkey (lit "created_at") (by decide), hkey (lit "updated_at") (by decide),
      hkey (lit "completed_at") (by decide)]

/-- A two-field record document and its field-swapped permutation. -/
def c9fs : List (Str × FieldVal) :=
  [(lit "id", FieldVal.bare (lit "1")), (lit "title", FieldVal.str (lit "t"))]

def c9fsSwapped : List (Str × FieldVal) :=
  [(lit "title", FieldVal.str (lit "t")), (lit "id", FieldVal.bare (lit "1"))]

theorem c9_witness :
    IndOK [] ∧ ObjWF c9fs ∧ c9fs.Perm c9fsSwapped ∧
    Task.fromJson demoClock 0 (renderObj [] c9fsSwapped) =
      Task.fromJson demoClock 0 (renderObj [] c9fs) :=
  ⟨by decide, by decide, by decide,
   c9_field_order_independence demoClock 0 [] c9fs c9fsSwapped (by decide) (by decide)
     (by decide)⟩

/-! ## C5 (round-trip part): decimal rendering and `stoi` -/

theorem digitChar_mem : ∀ k < 10, Nat.digitChar k ∈ lit "0123456789" := by decide

theorem digitChar_toNat : ∀ k < 10, (Nat.digitChar k).toNat = k + 48 := by decide

/-- Character-class facts for the ten digit characters, read off by evaluation. -/
theorem digit_class : ∀ c ∈ lit "0123456789",
    c.isDigit = true ∧ isSpace c = false ∧ isBareStop c = false ∧ isTrimWs c = false ∧
    c ≠ '"' ∧ c ≠ '\\' ∧ c ≠ '-' ∧ c ≠ '+' ∧ c ≠ '.' ∧ c ≠ '[' ∧ c ≠ ']' ∧
    c ≠ '\x7b' ∧ c ≠ '\x7d' ∧ c ≠ '\n' ∧ c ≠ ':' := by decide

theorem natToCharsAux_mem : ∀ fuel n, ∀ c ∈ natToCharsAux fuel n,
    c ∈ lit "0123456789" := by
  intro fuel
  induction fuel with
  | zero => intro n c hc; simp [natToCharsAux] at hc
  | succ fuel ih =>
    intro n c hc
    simp only [natToCharsAux] at hc
    by_cases h : n < 10
    · rw [if_pos h] at hc
      rcases List.mem_singleton.1 hc with rfl
      exact digitChar_mem n h
    · rw [if_neg h] at hc
      rcases List.mem_append.1 hc with hc | hc
      · exact ih (n / 10) c hc
      · rcases List.mem_singleton.1 hc with rfl
        exact digitChar_mem _ (Nat.mod_lt n (by norm_num))

theorem natToChars_mem (n : Nat) : ∀ c ∈ natToChars n, c ∈ lit "0123456789" :=
  natToCharsAux_mem (n + 1) n

theorem natToChars_ne_nil (n : Nat) : natToChars n ≠ [] := by
  unfold natToChars
  simp only [natToCharsAux]
  split <;> simp

theorem readDigits_cons_digit (acc : Nat) (c : Char) (rest : Str)
    (h : c.isDigit = true) :
    readDigits acc (c :: rest) = readDigits (acc * 10 + (c.toNat - 48)) rest := by
  simp only [readDigits]
  rw [if_pos h]

theorem readDigits_append (a : Str) (ha : ∀ c ∈ a, c.isDigit = true) :
    ∀ b acc, readDigits acc (a ++ b) = readDigits (readDigits acc a).1 b := by
  induction a with
  | nil => intro b acc; rfl
  | cons c a' ih =>
    intro b acc
    rw [List.cons_append, readDigits_cons_digit _ _ _ (ha c (by simp)),
        readDigits_cons_digit _ _ _ (ha c (by simp)),
        ih (fun x hx => ha x (by simp [hx]))]

theorem readDigits_natToCharsAux : ∀ fuel n acc, n < 10 ^ fuel →
    readDigits acc (natToCharsAux fuel n) =
      (acc * 10 ^ (natToCharsAux fuel n).length + n, []) := by
  intro fuel
  induction fuel with
  | zero =>
    intro n acc h
    have h0 : n = 0 := by simpa using h
    subst h0
    simp [natToCharsAux, readDigits]
  | succ fuel ih =>
    intro n acc h
    by_cases h10 : n < 10
    · simp only [natToCharsAux, if_pos h10]
      rw [readDigits_cons_digit _ _ _ (digit_class _ (digitChar_mem n h10)).1]
      simp only [readDigits, List.length_singleton, pow_one]
      rw [digitChar_toNat n h10]
      congr 1 <;> omega
    · simp only [natToCharsAux, if_neg h10]
      have hdiv : n / 10 < 10 ^ fuel := by
        rw [Nat.div_lt_iff_lt_mul (by norm_num)]
        calc n < 10 ^ (fuel + 1) := h
        _ = 10 ^ fuel * 10 := by rw [pow_succ]
      rw [readDigits_append _
            (fun c hc => (digit_class _ (natToCharsAux_mem fuel (n / 10) c hc)).1),
          ih (n / 10) acc hdiv]
      have hm10 : n % 10 < 10 := Nat.mod_lt n (by norm_num)
      rw [readDigits_cons_digit _ _ _ (digit_class _ (digitChar_mem _ hm10)).1]
      simp only [readDigits, List.length_append, List.length_singleton]
      rw [digitChar_toNat _ hm10]
      have hdm := Nat.div_add_mod n 10
      have hpow : (10:Nat) ^ ((natToCharsAux fuel (n / 10)).length + 1) =
          10 ^ (natToCharsAux fuel (n / 10)).length * 10 := pow_succ 10 _
      congr 1
      rw [hpow]
      generalize (10:Nat) ^ (natToCharsAux fuel (n / 10)).length = X
      have hx : acc * (X * 10) = acc * X * 10 := by ring
      rw [hx]
      omega

theorem n_lt_ten_pow (n : Nat) : n < 10 ^ (n + 1) :=
  lt_of_lt_of_le (Nat.lt_two_pow n)
    (le_trans (Nat.pow_le_pow_left (by norm_num) n)
      (Nat.pow_le_pow_right (by norm_num) (Nat.le_succ n)))

theorem readDigits_natToChars (n acc : Nat) :
    readDigits acc (natToChars n) = (acc * 10 ^ (natToChars n).length + n, []) :=
  readDigits_natToCharsAux (n + 1) n acc (n_lt_ten_pow n)

theorem readDigits_natToChars_zero (n : Nat) :
    readDigits 0 (natToChars n) = (n, []) := by
  rw [readDigits_natToChars]
  simp

theorem stoiOpt_cons (c : Char) (rest : Str) (hs : isSpace c = false)
    (h1 : c ≠ '-') (h2 : c ≠ '+') :
    stoiOpt (c :: rest) =
      if c.isDigit then some ((readDigits 0 (c :: rest)).1 : Int) else none := by
  simp only [stoiOpt]
  rw [List.dropWhile_cons, hs]
  simp only [Bool.false_eq_true, if_false]

theorem stoiOpt_neg_cons (d : Char) (ds : Str) :
    stoiOpt ('-' :: d :: ds) =
      if d.isDigit then some (-(((readDigits 0 (d :: ds)).1 : Nat) : Int)) else none := by
  simp only [stoiOpt]
  rw [List.dropWhile_cons]
  rw [show isSpace '-' = false from rfl]
  simp only [Bool.false_eq_true, if_false]

theorem stoiOpt_natToChars (n : Nat) : stoiOpt (natToChars n) = some (n : Int) := by
  obtain ⟨d, ds, hds⟩ : ∃ d ds, natToChars n = d :: ds := by
    cases h : natToChars n with
    | nil => exact absurd h (natToChars_ne_nil n)
    | cons d ds => exact ⟨d, ds, rfl⟩
  have hd := digit_class d (natToChars_mem n d (by rw [hds]; simp))
  rw [hds, stoiOpt_cons d ds hd.2.1 hd.2.2.2.2.2.2.1 hd.2.2.2.2.2.2.2.1,
      if_pos hd.1, ← hds, readDigits_natToChars_zero]

/-- `std::stoi` inverts the `std::format` decimal rendering of any `int`. -/
theorem stoiOpt_intToChars (k : Int) : stoiOpt (intToChars k) = some k := by
  unfold intToChars
  split
  · rename_i hneg
    obtain ⟨d, ds, hds⟩ : ∃ d ds, natToChars (-k).toNat = d :: ds := by
      cases h : natToChars (-k).toNat with
      | nil => exact absurd h (natToChars_ne_nil _)
      | cons d ds => exact ⟨d, ds, rfl⟩
    have hd := digit_class d (natToChars_mem _ d (by rw [hds]; simp))
    rw [hds, stoiOpt_neg_cons d ds, if_pos hd.1, ← hds, readDigits_natToChars_zero]
    congr 1
    omega
  · rename_i hpos
    rw [stoiOpt_natToChars]
    congr 1
    omega

/-! ## C5 (round-trip part): the scanner-safe text fragment -/

/-- A scanner-safe text character: no raw control character (below 0x20) and
none of the characters the hand-rolled scanners treat structurally: quote,
backslash, the braces counted by the brace walk, and the `]` taken for the end
of the task array. -/
def SafeChar (c : Char) : Prop :=
  32 ≤ c.toNat ∧ c ≠ '"' ∧ c ≠ '\\' ∧ c ≠ '\x7b' ∧ c ≠ '\x7d' ∧ c ≠ ']'

instance (c : Char) : Decidable (SafeChar c) := by unfold SafeChar; infer_instance

def SafeStr (s : Str) : Prop := ∀ c ∈ s, SafeChar c

instance (s : Str) : Decidable (SafeStr s) := by unfold SafeStr; infer_instance

theorem escapeChar_id (c : Char) (h : SafeChar c) : escapeChar c = [c] := by
  obtain ⟨h32, hq, hb, -⟩ := h
  unfold escapeChar
  rw [if_neg hq, if_neg hb,
      if_neg (by rintro rfl; exact absurd h32 (by decide)),
      if_neg (by rintro rfl; exact absurd h32 (by decide)),
      if_neg (by rintro rfl; exact absurd h32 (by decide)),
      if_neg (by rintro rfl; exact absurd h32 (by decide)),
      if_neg (by rintro rfl; exact absurd h32 (by decide)),
      if_neg (by omega)]

theorem escapeJsonString_id (s : Str) (h : SafeStr s) : escapeJsonString s = s := by
  induction s with
  | nil => rfl
  | cons c rest ih =>
    show escapeChar c ++ escapeJsonString rest = c :: rest
    rw [escapeChar_id c (h c (by simp)), ih (fun x hx => h x (by simp [hx]))]
    rfl

theorem natToCharsAux_length : ∀ fuel k n, 10 ^ k ≤ n → n < 10 ^ (k + 1) → k < fuel →
    (natToCharsAux fuel n).length = k + 1 := by
  intro fuel
  induction fuel with
  | zero => intro k n _ _ hk; omega
  | succ fuel ih =>
    intro k n hlo hhi hk
    simp only [natToCharsAux]
    by_cases h10 : n < 10
    · rw [if_pos h10]
      have hk0 : k = 0 := by
        by_contra hne
        have h1k : (10:Nat) ≤ 10 ^ k :=
          calc (10:Nat) = 10 ^ 1 := (pow_one 10).symm
          _ ≤ 10 ^ k := Nat.pow_le_pow_right (by norm_num) (by omega)
        omega
      simp [hk0]
    · rw [if_neg h10]
      have hk1 : 1 ≤ k := by
        by_contra hk0
        have hz : k = 0 := by omega
        subst hz
        rw [pow_one] at hhi
        omega
      rw [List.length_append, List.length_singleton]
      have hlen : (natToCharsAux fuel (n / 10)).length = (k - 1) + 1 := by
        apply ih
        · rw [Nat.le_div_iff_mul_le (by norm_num)]
          calc 10 ^ (k - 1) * 10 = 10 ^ ((k - 1) + 1) := (pow_succ 10 (k - 1)).symm
          _ = 10 ^ k := by congr 1; omega
          _ ≤ n := hlo
        · rw [Nat.div_lt_iff_lt_mul (by norm_num)]
          calc n < 10 ^ (k + 1) := hhi
          _ = 10 ^ k * 10 := pow_succ 10 k
          _ = 10 ^ ((k - 1) + 1) * 10 := by congr 2; omega
        · omega
      omega

theorem natToChars_length1 (n : Nat) (h : n < 10) : (natToChars n).length = 1 := by
  unfold natToChars
  simp only [natToCharsAux]
  rw [if_pos h]
  rfl

theorem natToChars_length (k n : Nat) (hlo : 10 ^ k ≤ n) (hhi : n < 10 ^ (k + 1)) :
    (natToChars n).length = k + 1 := by
  apply natToCharsAux_length (n + 1) k n hlo hhi
  have h2 : k < 2 ^ k := Nat.lt_two_pow k
  have h3 : (2:Nat) ^ k ≤ 10 ^ k := Nat.pow_le_pow_left (by norm_num) k
  omega

theorem pad2_mem (n : Nat) : ∀ c ∈ pad2 n, c ∈ lit "0123456789" := by
  intro c hc
  unfold pad2 at hc
  split at hc
  · rcases List.mem_cons.1 hc with rfl | hc
    · decide
    · exact natToChars_mem n c hc
  · exact natToChars_mem n c hc

theorem pad2_length (n : Nat) (h : n ≤ 99) : (pad2 n).length = 2 := by
  unfold pad2
  split
  · rename_i h10
    rw [List.length_cons, natToChars_length1 n h10]
  · rename_i h10
    rw [natToChars_length 1 n (by omega) (by norm_num; omega)]

theorem readDigits_pad2 (n : Nat) : readDigits 0 (pad2 n) = (n, []) := by
  unfold pad2
  split
  · rw [readDigits_cons_digit 0 '0' _ (by decide)]
    exact readDigits_natToChars_zero n
  · exact readDigits_natToChars_zero n

theorem pad3_mem (n : Nat) : ∀ c ∈ pad3 n, c ∈ lit "0123456789" := by
  intro c hc
  unfold pad3 at hc
  split at hc
  · rcases List.mem_cons.1 hc with rfl | hc
    · decide
    rcases List.mem_cons.1 hc with rfl | hc
    · decide
    · exact natToChars_mem n c hc
  · split at hc
    · rcases List.mem_cons.1 hc with rfl | hc
      · decide
      · exact natToChars_mem n c hc
    · exact natToChars_mem n c hc

theorem pad3_length (n : Nat) (h : n ≤ 999) : (pad3 n).length = 3 := by
  unfold pad3
  split
  · rename_i h10
    rw [List.length_cons, List.length_cons, natToChars_length1 n h10]
  · split
    · rename_i h10 h100
      rw [List.length_cons, natToChars_length 1 n (by omega) (by norm_num; omega)]
    · rename_i h10 h100
      rw [natToChars_length 2 n (by norm_num; omega) (by norm_num; omega)]

theorem readDigits_pad3 (n : Nat) : readDigits 0 (pad3 n) = (n, []) := by
  unfold pad3
  split
  · rw [readDigits_cons_digit 0 '0' _ (by decide), readDigits_cons_digit _ '0' _ (by decide)]
    exact readDigits_natToChars_zero n
  · split
    · rw [readDigits_cons_digit 0 '0' _ (by decide)]
      exact readDigits_natToChars_zero n
    · exact readDigits_natToChars_zero n

theorem readField_exact (w : Nat) (ds rest : Str) (hw : ds.length = w)
    (hds : ∀ c ∈ ds, c.isDigit = true)
    (hrest : ∀ x, rest.head? = some x → x.isDigit = false)
    (hne : ds ≠ []) :
    readField w (ds ++ rest) = some ((readDigits 0 ds).1, rest) := by
  simp only [readField]
  rw [takeWhile_append_exact _ ds rest hds hrest, ← hw,
      List.take_of_length_le (Nat.le_refl ds.length), if_neg hne, List.drop_left]

theorem readField_pad2 (n : Nat) (rest : Str) (hn : n ≤ 99)
    (hrest : ∀ x, rest.head? = some x → x.isDigit = false) :
    readField 2 (pad2 n ++ rest) = some (n, rest) := by
  rw [readField_exact 2 (pad2 n) rest (pad2_length n hn)
        (fun c hc => (digit_class c (pad2_mem n c hc)).1) hrest
        (by intro he; have := pad2_length n hn; rw [he] at this; simp at this),
      readDigits_pad2]

theorem readField_natToChars4 (n : Nat) (rest : Str) (hlo : 1000 ≤ n) (hhi : n ≤ 9999)
    (hrest : ∀ x, rest.head? = some x → x.isDigit = false) :
    readField 4 (natToChars n ++ rest) = some (n, rest) := by
  rw [readField_exact 4 (natToChars n) rest
        (natToChars_length 3 n (by norm_num; omega) (by norm_num; omega))
        (fun c hc => (digit_class c (natToChars_mem _ c hc)).1) hrest
        (natToChars_ne_nil _),
      readDigits_natToChars_zero]

theorem expectCh_self (c : Char) (rest : Str) : expectCh c (c :: rest) = some rest := by
  simp [expectCh]

theorem getTimeTm_render (tm : Tm) (htm : TmOK tm) (ms : Nat) :
    getTimeTm (renderTm tm ++ '.' :: pad3 ms) = some tm := by
  obtain ⟨h70, h9999, hmo1, hmo12, hd1, hd31, hh23, hmi59, hs59⟩ := htm
  have hnd : ∀ (d : Char), d.isDigit = false → ∀ (t : Str),
      ∀ x, (d :: t : Str).head? = some x → x.isDigit = false := by
    intro d hd t x hx
    injection hx with hx
    rw [← hx]
    exact hd
  have hsplit : renderTm tm ++ '.' :: pad3 ms =
      natToChars tm.year ++ ('-' :: (pad2 tm.mon ++ ('-' :: (pad2 tm.mday ++
        ('T' :: (pad2 tm.hour ++ (':' :: (pad2 tm.tmin ++ (':' :: (pad2 tm.sec ++
          ('.' :: pad3 ms))))))))))) := by
    simp [renderTm, List.append_assoc]
  rw [hsplit]
  simp only [getTimeTm]
  rw [readField_natToChars4 tm.year _ (by omega) (by omega) (hnd '-' rfl _)]
  simp only [Option.bind_eq_bind, Option.some_bind]
  rw [expectCh_self]
  simp only [Option.some_bind]
  rw [readField_pad2 tm.mon _ (by omega) (hnd '-' rfl _)]
  simp only [Option.bind]
  rw [expectCh_self]
  simp only [Option.some_bind]
  rw [readField_pad2 tm.mday _ (by omega) (hnd 'T' rfl _)]
  simp only [Option.bind]
  rw [expectCh_self]
  simp only [Option.some_bind]
  rw [readField_pad2 tm.hour _ (by omega) (hnd ':' rfl _)]
  simp only [Option.bind]
  rw [expectCh_self]
  simp only [Option.some_bind]
  rw [readField_pad2 tm.tmin _ (by omega) (hnd ':' rfl _)]
  simp only [Option.bind]
  rw [expectCh_self]
  simp only [Option.some_bind]
  rw [readField_pad2 tm.sec _ (by omega) (hnd '.' rfl _)]
  simp only [Option.some_bind]
  rfl

theorem clean_singleton (d : Char) (u v : Str) (hu : ∀ c ∈ u, c ≠ d) :
    Clean [d] u v := by
  intro i hi hpre
  obtain ⟨t, ht⟩ := hpre
  have hhead : ((u ++ v).drop i).head? = some d := by
    rw [← ht]
    rfl
  rw [List.head?_drop] at hhead
  have hio : (u ++ v)[i]? = u[i]? := by
    rw [List.getElem?_append, if_pos hi]
  rw [hio, List.getElem?_eq_getElem hi] at hhead
  exact hu _ (List.getElem_mem hi) (by injection hhead)

theorem digit_sub_tm : ∀ c ∈ lit "0123456789", c ∈ lit "0123456789-T:" := by decide

theorem renderTm_mem (tm : Tm) : ∀ c ∈ renderTm tm, c ∈ lit "0123456789-T:" := by
  intro c hc
  simp only [renderTm, List.mem_append, List.mem_cons] at hc
  rcases hc with ((((h | h) | h) | h) | h) | h
  · exact digit_sub_tm c (natToChars_mem _ c h)
  · rcases h with rfl | h
    · decide
    · exact digit_sub_tm c (pad2_mem _ c h)
  · rcases h with rfl | h
    · decide
    · exact digit_sub_tm c (pad2_mem _ c h)
  · rcases h with rfl | h
    · decide
    · exact digit_sub_tm c (pad2_mem _ c h)
  · rcases h with rfl | h
    · decide
    · exact digit_sub_tm c (pad2_mem _ c h)
  · rcases h with rfl | h
    · decide
    · exact digit_sub_tm c (pad2_mem _ c h)

theorem firstOcc_dot (tm : Tm) (rest : Str) :
    firstOcc ['.'] (renderTm tm ++ '.' :: rest) = some (renderTm tm).length := by
  apply firstOcc_found
  · exact clean_singleton '.' _ _
      (fun c hc => fun he => by
        subst he
        have := renderTm_mem tm _ hc
        exact absurd this (by decide))
  · exact ⟨rest, rfl⟩
  · simp

theorem pad3_ne_nil (n : Nat) : pad3 n ≠ [] := by
  unfold pad3
  split
  · simp
  · split
    · simp
    · exact natToChars_ne_nil n

/-- The codec's civil-time conversion inverts on a time point whose
broken-down local time is in rendering range and is itself inverted by
`mktime`. -/
theorem iso_roundtrip (clock : Clock) (tp : Nat)
    (htm : TmOK (clock.localtime (tp / 1000)))
    (hmk : clock.mktime (clock.localtime (tp / 1000)) = tp / 1000) :
    isoStringToTimePoint clock (timePointToIsoString clock tp) = tp := by
  have hms : tp % 1000 ≤ 999 := by
    have := Nat.mod_lt tp (show 0 < 1000 by norm_num)
    omega
  simp only [timePointToIsoString, isoStringToTimePoint]
  rw [getTimeTm_render _ htm _, firstOcc_dot]
  simp only [Option.getD_some]
  have hsub : substr (renderTm (clock.localtime (tp / 1000)) ++ '.' :: pad3 (tp % 1000))
      ((renderTm (clock.localtime (tp / 1000))).length + 1) 3 = pad3 (tp % 1000) := by
    unfold substr
    rw [show renderTm (clock.localtime (tp / 1000)) ++ '.' :: pad3 (tp % 1000) =
          (renderTm (clock.localtime (tp / 1000)) ++ ['.']) ++ pad3 (tp % 1000) by simp,
        show (renderTm (clock.localtime (tp / 1000))).length + 1 =
          (renderTm (clock.localtime (tp / 1000)) ++ ['.']).length by
            rw [List.length_append, List.length_singleton],
        List.drop_left, ← pad3_length (tp % 1000) hms,
        List.take_of_length_le (Nat.le_refl _)]
  rw [hsub]
  obtain ⟨d, ds, hds⟩ : ∃ d ds, pad3 (tp % 1000) = d :: ds := by
    cases h : pad3 (tp % 1000) with
    | nil => exact absurd h (pad3_ne_nil _)
    | cons d ds => exact ⟨d, ds, rfl⟩
  have hd := digit_class d (pad3_mem _ d (by rw [hds]; simp))
  simp only [hds]
  rw [if_pos hd.1, ← hds, readDigits_pad3, hmk]
  omega

/-! ## C5 (round-trip part): the rendered record as a field list -/

/-- The top-level fields of `Task::toJson`, in emission order. -/
def taskFields (clock : Clock) (t : Task) : List (Str × FieldVal) :=
  [(lit "id", FieldVal.bare (intToChars t.id)),
   (lit "title", FieldVal.str (escapeJsonString t.title)),
   (lit "description", FieldVal.str (escapeJsonString t.description)),
   (lit "status", FieldVal.str (taskStatusToString t.status)),
   (lit "category", FieldVal.str (escapeJsonString t.metadata.category)),
   (lit "priority", FieldVal.bare (intToChars t.metadata.priority)),
   (lit "created_at", FieldVal.str (timePointToIsoString clock t.metadata.created_at)),
   (lit "updated_at", FieldVal.str (timePointToIsoString clock t.metadata.updated_at))] ++
  (match t.metadata.completed_at with
   | none => []
   | some ct => [(lit "completed_at", FieldVal.str (timePointToIsoString clock ct))])

/-- `Task::toJson` emits exactly the two-space-indented rendering of its field
list. -/
theorem toJson_renderObj (clock : Clock) (t : Task) :
    Task.toJson clock t = renderObj [] (taskFields clock t) := by
  cases hc : t.metadata.completed_at with
  | none =>
    simp only [Task.toJson, taskFields, hc]
    simp only [renderObj, fieldsText, renderField, fieldSep, renderVal, keyPat,
      List.append_assoc, List.cons_append, List.nil_append, List.append_nil]
    rfl
  | some ct =>
    simp only [Task.toJson, taskFields, hc]
    simp only [renderObj, fieldsText, renderField, fieldSep, renderVal, keyPat,
      List.append_assoc, List.cons_append, List.nil_append, List.append_nil]
    rfl

theorem digit_sub_int : ∀ c ∈ lit "0123456789", c ∈ lit "-0123456789" := by decide

theorem intToChars_mem (k : Int) : ∀ c ∈ intToChars k, c ∈ lit "-0123456789" := by
  intro c hc
  unfold intToChars at hc
  split at hc
  · rcases List.mem_cons.1 hc with rfl | hc
    · decide
    · exact digit_sub_int c (natToChars_mem _ c hc)
  · exact digit_sub_int c (natToChars_mem _ c hc)

/-- Character-class facts for decimal renderings of `int`. -/
theorem int_class : ∀ c ∈ lit "-0123456789",
    isBareStop c = false ∧ isSpace c = false ∧ isTrimWs c = false ∧ c ≠ '"' ∧
    c ≠ '\\' ∧ c ≠ '\x7b' ∧ c ≠ '\x7d' ∧ c ≠ ']' ∧ c ≠ '\n' := by decide

theorem intToChars_ne_nil (k : Int) : intToChars k ≠ [] := by
  unfold intToChars
  split
  · simp
  · exact natToChars_ne_nil _

theorem tm_sub_iso : ∀ c ∈ lit "0123456789-T:", c ∈ lit "0123456789-T:." := by decide

theorem digit_sub_iso : ∀ c ∈ lit "0123456789", c ∈ lit "0123456789-T:." := by decide

theorem iso_mem (clock : Clock) (tp : Nat) :
    ∀ c ∈ timePointToIsoString clock tp, c ∈ lit "0123456789-T:." := by
  intro c hc
  simp only [timePointToIsoString, List.mem_append, List.mem_cons] at hc
  rcases hc with h | rfl | h
  · exact tm_sub_iso c (renderTm_mem _ c h)
  · decide
  · exact digit_sub_iso c (pad3_mem _ c h)

/-- Character-class facts for rendered timestamps. -/
theorem iso_class : ∀ c ∈ lit "0123456789-T:.",
    c ≠ '"' ∧ c ≠ '\\' ∧ c ≠ '\x7b' ∧ c ≠ '\x7d' ∧ c ≠ ']' ∧ c ≠ '\n' ∧
    c ≠ ',' := by decide

/-- Character-class facts for rendered statuses. -/
theorem status_class (st : TaskStatus) : ∀ c ∈ taskStatusToString st,
    c ≠ '"' ∧ c ≠ '\\' ∧ c ≠ '\x7b' ∧ c ≠ '\x7d' ∧ c ≠ ']' ∧ c ≠ '\n' := by
  cases st <;> decide

theorem iso_ne_nil (clock : Clock) (tp : Nat) : timePointToIsoString clock tp ≠ [] := by
  simp [timePointToIsoString]

theorem stringToTaskStatus_round (st : TaskStatus) :
    stringToTaskStatus (taskStatusToString st) = some st := by
  cases st <;> decide

/-- The scanner-safe record fragment: non-empty title and category, and
title, description and category free of the characters the scanners treat
structurally. -/
def SafeTask (t : Task) : Prop :=
  t.title ≠ [] ∧ t.metadata.category ≠ [] ∧
  SafeStr t.title ∧ SafeStr t.description ∧ SafeStr t.metadata.category

instance (t : Task) : Decidable (SafeTask t) := by unfold SafeTask; infer_instance

/-- `localtime` and `mktime` behave as mutual inverses in rendering range on
the given time point. -/
def ClockTimeOK (clock : Clock) (tp : Nat) : Prop :=
  TmOK (clock.localtime (tp / 1000)) ∧
  clock.mktime (clock.localtime (tp / 1000)) = tp / 1000

instance (clock : Clock) (tp : Nat) : Decidable (ClockTimeOK clock tp) := by
  unfold ClockTimeOK; infer_instance

theorem valWF_bare_int (k : Int) : ValWF (FieldVal.bare (intToChars k)) := by
  refine ⟨intToChars_ne_nil k, ?_⟩
  intro c hc
  have h := int_class c (intToChars_mem k c hc)
  exact ⟨h.1, h.2.1, h.2.2.2.1⟩

theorem valWF_str_safe (s : Str) (h : SafeStr s) :
    ValWF (FieldVal.str (escapeJsonString s)) := by
  rw [escapeJsonString_id s h]
  intro c hc
  exact ⟨(h c hc).2.1, (h c hc).2.2.1⟩

theorem valWF_str_iso (clock : Clock) (tp : Nat) :
    ValWF (FieldVal.str (timePointToIsoString clock tp)) := by
  intro c hc
  have h := iso_class c (iso_mem clock tp c hc)
  exact ⟨h.1, h.2.1⟩

theorem valWF_str_status (st : TaskStatus) :
    ValWF (FieldVal.str (taskStatusToString st)) := by
  intro c hc
  have h := status_class st c hc
  exact ⟨h.1, h.2.1⟩

theorem taskFields_wf (clock : Clock) (t : Task) (hsafe : SafeTask t) :
    ObjWF (taskFields clock t) := by
  obtain ⟨hti, hca, hsti, hsde, hsca⟩ := hsafe
  constructor
  · cases hc : t.metadata.completed_at <;>
      (simp only [taskFields, hc, List.map_append, List.map_cons, List.map_nil]; decide)
  · intro f hf
    cases hc : t.metadata.completed_at with
    | none =>
      simp only [taskFields, hc, List.append_nil, List.mem_cons, List.not_mem_nil,
        or_false] at hf
      rcases hf with rfl | rfl | rfl | rfl | rfl | rfl | rfl | rfl
      · exact ⟨(by decide : KeyOK (lit "id")), valWF_bare_int t.id⟩
      · exact ⟨(by decide : KeyOK (lit "title")), valWF_str_safe _ hsti⟩
      · exact ⟨(by decide : KeyOK (lit "description")), valWF_str_safe _ hsde⟩
      · exact ⟨(by decide : KeyOK (lit "status")), valWF_str_status t.status⟩
      · exact ⟨(by decide : KeyOK (lit "category")), valWF_str_safe _ hsca⟩
      · exact ⟨(by decide : KeyOK (lit "priority")), valWF_bare_int t.metadata.priority⟩
      · exact ⟨(by decide : KeyOK (lit "created_at")), valWF_str_iso clock t.metadata.created_at⟩
      · exact ⟨(by decide : KeyOK (lit "updated_at")), valWF_str_iso clock t.metadata.updated_at⟩
    | some ct =>
      simp only [taskFields, hc, List.mem_append, List.mem_cons, List.not_mem_nil,
        or_false, List.mem_singleton] at hf
      rcases hf with (rfl | rfl | rfl | rfl | rfl | rfl | rfl | rfl) | rfl
      · exact ⟨(by decide : KeyOK (lit "id")), valWF_bare_int t.id⟩
      · exact ⟨(by decide : KeyOK (lit "title")), valWF_str_safe _ hsti⟩
      · exact ⟨(by decide : KeyOK (lit "description")), valWF_str_safe _ hsde⟩
      · exact ⟨(by decide : KeyOK (lit "status")), valWF_str_status t.status⟩
      · exact ⟨(by decide : KeyOK (lit "category")), valWF_str_safe _ hsca⟩
      · exact ⟨(by decide : KeyOK (lit "priority")), valWF_bare_int t.metadata.priority⟩
      · exact ⟨(by decide : KeyOK (lit "created_at")), valWF_str_iso clock t.metadata.created_at⟩
      · exact ⟨(by decide : KeyOK (lit "updated_at")), valWF_str_iso clock t.metadata.updated_at⟩
      · exact ⟨(by decide : KeyOK (lit "completed_at")), valWF_str_iso clock ct⟩

/-- `Task::fromJson` inverts the rendering of a scanner-safe record at any
space indentation, up to the clock inverting on its timestamps. -/
theorem fromJson_render (clock : Clock) (now : Nat) (ind : Str) (hind : IndOK ind)
    (t : Task) (hsafe : SafeTask t)
    (hca : ClockTimeOK clock t.metadata.created_at)
    (hua : ClockTimeOK clock t.metadata.updated_at)
    (hco : ∀ ct, t.metadata.completed_at = some ct → ClockTimeOK clock ct) :
    Task.fromJson clock now (renderObj ind (taskFields clock t)) = .ok t := by
  obtain ⟨hti, hcat, hsti, hsde, hsca⟩ := hsafe
  have hwf : ObjWF (taskFields clock t) :=
    taskFields_wf clock t ⟨hti, hcat, hsti, hsde, hsca⟩
  have h1 : findKey (taskFields clock t) (lit "id") =
      some (FieldVal.bare (intToChars t.id)) := rfl
  have h2 : findKey (taskFields clock t) (lit "title") =
      some (FieldVal.str (escapeJsonString t.title)) := rfl
  have h3 : findKey (taskFields clock t) (lit "description") =
      some (FieldVal.str (escapeJsonString t.description)) := rfl
  have h4 : findKey (taskFields clock t) (lit "status") =
      some (FieldVal.str (taskStatusToString t.status)) := rfl
  have h5 : findKey (taskFields clock t) (lit "category") =
      some (FieldVal.str (escapeJsonString t.metadata.category)) := rfl
  have h6 : findKey (taskFields clock t) (lit "priority") =
      some (FieldVal.bare (intToChars t.metadata.priority)) := rfl
  have h7 : findKey (taskFields clock t) (lit "created_at") =
      some (FieldVal.str (timePointToIsoString clock t.metadata.created_at)) := rfl
  have h8 : findKey (taskFields clock t) (lit "updated_at") =
      some (FieldVal.str (timePointToIsoString clock t.metadata.updated_at)) := rfl
  have hv1 : findValueT (renderObj ind (taskFields clock t)) (lit "id") =
      intToChars t.id :=
    (findValue_renderObj_found ind _ _ _ hind hwf (by decide) h1).2
  have hv2 : findValueT (renderObj ind (taskFields clock t)) (lit "title") =
      t.title := by
    rw [(findValue_renderObj_found ind _ _ _ hind hwf (by decide) h2).2]
    exact escapeJsonString_id _ hsti
  have hv3 : findValueT (renderObj ind (taskFields clock t)) (lit "description") =
      t.description := by
    rw [(findValue_renderObj_found ind _ _ _ hind hwf (by decide) h3).2]
    exact escapeJsonString_id _ hsde
  have hv4 : findValueT (renderObj ind (taskFields clock t)) (lit "status") =
      taskStatusToString t.status :=
    (findValue_renderObj_found ind _ _ _ hind hwf (by decide) h4).2
  have hv5 : findValueT (renderObj ind (taskFields clock t)) (lit "category") =
      t.metadata.category := by
    rw [(findValue_renderObj_found ind _ _ _ hind hwf (by decide) h5).2]
    exact escapeJsonString_id _ hsca
  have hv6 : findValueT (renderObj ind (taskFields clock t)) (lit "priority") =
      intToChars t.metadata.priority :=
    (findValue_renderObj_found ind _ _ _ hind hwf (by decide) h6).2
  have hv7 : findValueT (renderObj ind (taskFields clock t)) (lit "created_at") =
      timePointToIsoString clock t.metadata.created_at :=
    (findValue_renderObj_found ind _ _ _ hind hwf (by decide) h7).2
  have hv8 : findValueT (renderObj ind (taskFields clock t)) (lit "updated_at") =
      timePointToIsoString clock t.metadata.updated_at :=
    (findValue_renderObj_found ind _ _ _ hind hwf (by decide) h8).2
  cases hc : t.metadata.completed_at with
  | none =>
    have h9 : findKey (taskFields clock t) (lit "completed_at") = none := by
      simp only [taskFields, hc, List.append_nil]
      rfl
    have hv9 : findValueT (renderObj ind (taskFields clock t)) (lit "completed_at") =
        [] :=
      (findValue_renderObj_none ind _ _ hind hwf.2 (by decide) h9).2
    simp only [Task.fromJson, hv1, hv2, hv3, hv4, hv5, hv6, hv7, hv8, hv9,
      stoiOpt_intToChars, stringToTaskStatus_round, intToChars_ne_nil, hti, hcat,
      iso_ne_nil, iso_roundtrip clock t.metadata.created_at hca.1 hca.2,
      iso_roundtrip clock t.metadata.updated_at hua.1 hua.2,
      Task.make, Task.setCategory, Task.setPriority, Option.map_some,
      Option.map_some', not_true, ite_false, ite_true,
      ne_eq, not_false_iff, if_true, or_self, if_false]
    rw [← hc]
  | some ct =>
    have hcok := hco ct hc
    have h9 : findKey (taskFields clock t) (lit "completed_at") =
        some (FieldVal.str (timePointToIsoString clock ct)) := by
      simp only [taskFields, hc]
      rfl
    have hv9 : findValueT (renderObj ind (taskFields clock t)) (lit "completed_at") =
        timePointToIsoString clock ct :=
      (findValue_renderObj_found ind _ _ _ hind hwf (by decide) h9).2
    simp only [Task.fromJson, hv1, hv2, hv3, hv4, hv5, hv6, hv7, hv8, hv9,
      stoiOpt_intToChars, stringToTaskStatus_round, intToChars_ne_nil, hti, hcat,
      iso_ne_nil, iso_roundtrip clock t.metadata.created_at hca.1 hca.2,
      iso_roundtrip clock t.metadata.updated_at hua.1 hua.2,
      iso_roundtrip clock ct hcok.1 hcok.2,
      Task.make, Task.setCategory, Task.setPriority, Option.map_some,
      Option.map_some', not_true, ite_false, ite_true,
      ne_eq, not_false_iff, if_true, or_self, if_false]
    rw [← hc]

/-! ## C5 (round-trip part): four-space indentation of a rendered record -/

theorem indentNL_cons (c : Char) (rest : Str) :
    indentNL (c :: rest) =
      if c = '\n' then '\n' :: ' ' :: ' ' :: ' ' :: ' ' :: indentNL rest
      else c :: indentNL rest := rfl

theorem indentNL_append (a b : Str) : indentNL (a ++ b) = indentNL a ++ indentNL b := by
  induction a with
  | nil => rfl
  | cons c a' ih =>
    rw [List.cons_append, indentNL_cons, indentNL_cons]
    by_cases h : c = '\n'
    · rw [if_pos h, if_pos h, ih]
      rfl
    · rw [if_neg h, if_neg h, ih]
      rfl

theorem indentNL_nlfree (a : Str) (h : ∀ c ∈ a, c ≠ '\n') : indentNL a = a := by
  induction a with
  | nil => rfl
  | cons c a' ih =>
    rw [indentNL_cons, if_neg (h c (by simp)), ih (fun x hx => h x (by simp [hx]))]

theorem keyPat_nlfree (k : Str) (hk : KeyOK k) : ∀ c ∈ keyPat k, c ≠ '\n' := by
  intro c hc
  rw [keyPat_eq] at hc
  rcases List.mem_cons.1 hc with rfl | hc
  · decide
  rcases List.mem_append.1 hc with hc | hc
  · exact (keyChar_props c (hk.2 c hc)).2.2.2.1
  · rcases List.mem_cons.1 hc with rfl | hc
    · decide
    · rcases List.mem_singleton.1 hc with rfl
      decide

theorem indentNL_renderField (f : Str × FieldVal) (hk : KeyOK f.1)
    (hv : ∀ c ∈ renderVal f.2, c ≠ '\n') :
    indentNL (renderField f) = renderField f := by
  apply indentNL_nlfree
  intro c hc
  unfold renderField at hc
  rcases List.mem_append.1 hc with hc | hc
  · exact keyPat_nlfree f.1 hk c hc
  · rcases List.mem_cons.1 hc with rfl | hc
    · decide
    · exact hv c hc

theorem indentNL_fieldsText (fs : List (Str × FieldVal))
    (h : ∀ f ∈ fs, indentNL (renderField f) = renderField f) :
    indentNL (fieldsText [] fs) = fieldsText (lit "    ") fs := by
  induction fs with
  | nil => rfl
  | cons f rest ih =>
    cases rest with
    | nil =>
      rw [fieldsText_singleton, fieldsText_singleton]
      exact h f (by simp)
    | cons g r2 =>
      rw [fieldsText_cons_ne [] f _ (by simp), fieldsText_cons_ne (lit "    ") f _ (by simp),
          indentNL_append, indentNL_append, h f (by simp),
          ih (fun x hx => h x (by simp [hx]))]
      rfl

theorem indentNL_renderObj (fs : List (Str × FieldVal))
    (h : ∀ f ∈ fs, indentNL (renderField f) = renderField f) :
    indentNL (renderObj [] fs) = renderObj (lit "    ") fs := by
  rw [show renderObj [] fs =
        ('\x7b' :: '\n' :: ([] ++ lit "  ")) ++ fieldsText [] fs ++
          ('\n' :: ([] ++ ['\x7d'])) by simp [renderObj],
      indentNL_append, indentNL_append, indentNL_fieldsText fs h,
      show renderObj (lit "    ") fs =
        ('\x7b' :: '\n' :: (lit "    " ++ lit "  ")) ++ fieldsText (lit "    ") fs ++
          ('\n' :: (lit "    " ++ ['\x7d'])) by simp [renderObj]]
  rfl

/-! ## C5 (round-trip part): character discipline of a rendered block -/

/-- A character that cannot disturb the collection scan: not a brace counted
by the brace walk and not the `]` searched for the array end. -/
def BraceSafe (c : Char) : Prop := c ≠ '\x7b' ∧ c ≠ '\x7d' ∧ c ≠ ']'

instance (c : Char) : Decidable (BraceSafe c) := by unfold BraceSafe; infer_instance

theorem safeChar_nl (c : Char) (h : SafeChar c) : c ≠ '\n' := by
  rintro rfl
  exact absurd h.1 (by decide)

theorem safeChar_braceSafe (c : Char) (h : SafeChar c) : BraceSafe c :=
  ⟨h.2.2.2.1, h.2.2.2.2.1, h.2.2.2.2.2⟩

theorem keyChar_braceSafe (c : Char) (h : c.isAlpha = true ∨ c = '_') :
    BraceSafe c := by
  rcases h with h | rfl
  · refine ⟨?_, ?_, ?_⟩ <;> (intro he; subst he; revert h; decide)
  · decide

theorem keyPat_braceSafe (k : Str) (hk : KeyOK k) : ∀ c ∈ keyPat k, BraceSafe c := by
  intro c hc
  rw [keyPat_eq] at hc
  rcases List.mem_cons.1 hc with rfl | hc
  · decide
  rcases List.mem_append.1 hc with hc | hc
  · exact keyChar_braceSafe c (hk.2 c hc)
  · rcases List.mem_cons.1 hc with rfl | hc
    · decide
    · rcases List.mem_singleton.1 hc with rfl
      decide

theorem renderField_braceSafe (f : Str × FieldVal) (hk : KeyOK f.1)
    (hv : ∀ c ∈ renderVal f.2, BraceSafe c) : ∀ c ∈ renderField f, BraceSafe c := by
  intro c hc
  unfold renderField at hc
  rcases List.mem_append.1 hc with hc | hc
  · exact keyPat_braceSafe f.1 hk c hc
  · rcases List.mem_cons.1 hc with rfl | hc
    · decide
    · exact hv c hc

theorem fieldSep_braceSafe (ind : Str) (hind : IndOK ind) :
    ∀ c ∈ fieldSep ind, BraceSafe c := by
  intro c hc
  simp only [fieldSep] at hc
  rcases List.mem_cons.1 hc with rfl | hc
  · decide
  rcases List.mem_cons.1 hc with rfl | hc
  · decide
  rcases List.mem_append.1 hc with hc | hc
  · rw [hind c hc]; decide
  · have he2 : lit "  " = [' ', ' '] := rfl
    rw [he2] at hc
    rcases List.mem_cons.1 hc with rfl | hc
    · decide
    · rcases List.mem_singleton.1 hc with rfl
      decide

theorem fieldsText_braceSafe (ind : Str) (hind : IndOK ind)
    (fs : List (Str × FieldVal))
    (hf : ∀ f ∈ fs, ∀ c ∈ renderField f, BraceSafe c) :
    ∀ c ∈ fieldsText ind fs, BraceSafe c := by
  induction fs with
  | nil => intro c hc; simp [fieldsText] at hc
  | cons f rest ih =>
    intro c hc
    cases rest with
    | nil =>
      rw [fieldsText_singleton] at hc
      exact hf f (by simp) c hc
    | cons g r2 =>
      rw [fieldsText_cons_ne ind f _ (by simp)] at hc
      rcases List.mem_append.1 hc with hc | hc
      · rcases List.mem_append.1 hc with hc | hc
        · exact hf f (by simp) c hc
        · exact fieldSep_braceSafe ind hind c hc
      · exact ih (fun x hx => hf x (by simp [hx])) c hc

theorem val_props_int (k : Int) :
    ∀ c ∈ renderVal (FieldVal.bare (intToChars k)), BraceSafe c ∧ c ≠ '\n' := by
  intro c hc
  have h := int_class c (intToChars_mem k c hc)
  exact ⟨⟨h.2.2.2.2.2.1, h.2.2.2.2.2.2.1, h.2.2.2.2.2.2.2.1⟩, h.2.2.2.2.2.2.2.2⟩

theorem val_props_str (s : Str) (h : SafeStr s) :
    ∀ c ∈ renderVal (FieldVal.str (escapeJsonString s)), BraceSafe c ∧ c ≠ '\n' := by
  rw [escapeJsonString_id s h]
  intro c hc
  simp only [renderVal, List.cons_append, List.mem_cons, List.mem_append,
    List.mem_singleton] at hc
  rcases hc with rfl | hc | rfl | hc
  · exact ⟨by decide, by decide⟩
  · exact ⟨safeChar_braceSafe c (h c hc), safeChar_nl c (h c hc)⟩
  · exact ⟨by decide, by decide⟩
  · simp at hc

theorem val_props_status (st : TaskStatus) :
    ∀ c ∈ renderVal (FieldVal.str (taskStatusToString st)), BraceSafe c ∧ c ≠ '\n' := by
  intro c hc
  simp only [renderVal, List.cons_append, List.mem_cons, List.mem_append,
    List.mem_singleton] at hc
  rcases hc with rfl | hc | rfl | hc
  · exact ⟨by decide, by decide⟩
  · have h := status_class st c hc
    exact ⟨⟨h.2.2.1, h.2.2.2.1, h.2.2.2.2.1⟩, h.2.2.2.2.2⟩
  · exact ⟨by decide, by decide⟩
  · simp at hc

theorem val_props_iso (clock : Clock) (tp : Nat) :
    ∀ c ∈ renderVal (FieldVal.str (timePointToIsoString clock tp)),
      BraceSafe c ∧ c ≠ '\n' := by
  intro c hc
  simp only [renderVal, List.cons_append, List.mem_cons, List.mem_append,
    List.mem_singleton] at hc
  rcases hc with rfl | hc | rfl | hc
  · exact ⟨by decide, by decide⟩
  · have h := iso_class c (iso_mem clock tp c hc)
    exact ⟨⟨h.2.2.1, h.2.2.2.1, h.2.2.2.2.1⟩, h.2.2.2.2.2.1⟩
  · exact ⟨by decide, by decide⟩
  · simp at hc

theorem taskFields_props (clock : Clock) (t : Task) (hsafe : SafeTask t) :
    ∀ f ∈ taskFields clock t, KeyOK f.1 ∧
      ∀ c ∈ renderVal f.2, BraceSafe c ∧ c ≠ '\n' := by
  obtain ⟨hti, hcat, hsti, hsde, hsca⟩ := hsafe
  intro f hf
  cases hc : t.metadata.completed_at with
  | none =>
    simp only [taskFields, hc, List.append_nil, List.mem_cons, List.not_mem_nil,
      or_false] at hf
    rcases hf with rfl | rfl | rfl | rfl | rfl | rfl | rfl | rfl
    · exact ⟨(by decide : KeyOK (lit "id")), val_props_int t.id⟩
    · exact ⟨(by decide : KeyOK (lit "title")), val_props_str _ hsti⟩
    · exact ⟨(by decide : KeyOK (lit "description")), val_props_str _ hsde⟩
    · exact ⟨(by decide : KeyOK (lit "status")), val_props_status t.status⟩
    · exact ⟨(by decide : KeyOK (lit "category")), val_props_str _ hsca⟩
    · exact ⟨(by decide : KeyOK (lit "priority")), val_props_int t.metadata.priority⟩
    · exact ⟨(by decide : KeyOK (lit "created_at")), val_props_iso clock _⟩
    · exact ⟨(by decide : KeyOK (lit "updated_at")), val_props_iso clock _⟩
  | some ct =>
    simp only [taskFields, hc, List.mem_append, List.mem_cons, List.not_mem_nil,
      or_false, List.mem_singleton] at hf
    rcases hf with (rfl | rfl | rfl | rfl | rfl | rfl | rfl | rfl) | rfl
    · exact ⟨(by decide : KeyOK (lit "id")), val_props_int t.id⟩
    · exact ⟨(by decide : KeyOK (lit "title")), val_props_str _ hsti⟩
    · exact ⟨(by decide : KeyOK (lit "description")), val_props_str _ hsde⟩
    · exact ⟨(by decide : KeyOK (lit "status")), val_props_status t.status⟩
    · exact ⟨(by decide : KeyOK (lit "category")), val_props_str _ hsca⟩
    · exact ⟨(by decide : KeyOK (lit "priority")), val_props_int t.metadata.priority⟩
    · exact ⟨(by decide : KeyOK (lit "created_at")), val_props_iso clock _⟩
    · exact ⟨(by decide : KeyOK (lit "updated_at")), val_props_iso clock _⟩
    · exact ⟨(by decide : KeyOK (lit "completed_at")), val_props_iso clock ct⟩

theorem taskFields_indent (clock : Clock) (t : Task) (hsafe : SafeTask t) :
    ∀ f ∈ taskFields clock t, indentNL (renderField f) = renderField f := by
  intro f hf
  have h := taskFields_props clock t hsafe f hf
  exact indentNL_renderField f h.1 (fun c hc => (h.2 c hc).2)

/-- The text of one task block of `TaskManager::toJsonString`, from its opening
brace to its closing brace: the four-space-indented record rendering. -/
theorem taskBlock_eq (clock : Clock) (t : Task) (hsafe : SafeTask t) :
    indentNL (Task.toJson clock t) = renderObj (lit "    ") (taskFields clock t) := by
  rw [toJson_renderObj, indentNL_renderObj _ (taskFields_indent clock t hsafe)]

/-- The interior of a rendered record: everything between the braces. -/
def objBody (ind : Str) (fs : List (Str × FieldVal)) : Str :=
  '\n' :: ind ++ lit "  " ++ fieldsText ind fs ++ '\n' :: ind

theorem renderObj_body (ind : Str) (fs : List (Str × FieldVal)) :
    renderObj ind fs = '\x7b' :: objBody ind fs ++ ['\x7d'] := by
  simp [renderObj, objBody, List.append_assoc]

theorem objBody_braceSafe (ind : Str) (hind : IndOK ind)
    (fs : List (Str × FieldVal))
    (hf : ∀ f ∈ fs, KeyOK f.1 ∧ ∀ c ∈ renderVal f.2, BraceSafe c ∧ c ≠ '\n') :
    ∀ c ∈ objBody ind fs, BraceSafe c := by
  intro c hc
  simp only [objBody, List.cons_append, List.mem_cons, List.mem_append] at hc
  rcases hc with rfl | ((hc | hc) | hc) | rfl | hc
  · decide
  · rw [hind c hc]; decide
  · have he2 : lit "  " = [' ', ' '] := rfl
    rw [he2] at hc
    rcases List.mem_cons.1 hc with rfl | hc
    · decide
    · rcases List.mem_singleton.1 hc with rfl
      decide
  · refine fieldsText_braceSafe ind hind fs ?_ c hc
    intro f hff
    exact renderField_braceSafe f (hf f hff).1 (fun x hx => ((hf f hff).2 x hx).1)
  · decide
  · rw [hind c hc]; decide

/-! ## C5 (round-trip part): the collection scan -/

theorem findFrom_exact (pat s : Str) (pos : Nat) (pre post : Str)
    (hdrop : s.drop pos = pre ++ post) (hclean : Clean pat pre post)
    (hpre : pat <+: post) (hpat : pat ≠ []) :
    findFrom pat s pos = some (pos + pre.length) := by
  unfold findFrom
  rw [hdrop, firstOcc_found pat pre post hclean hpre hpat]
  rfl

theorem braceEndAux_depth0 (s : Str) (array_end : Nat) :
    ∀ fuel i, braceEndAux s array_end fuel i 0 = (i, 0) := by
  intro fuel i
  cases fuel with
  | zero => rfl
  | succ f =>
    rw [braceEndAux, if_neg (by omega)]

theorem getD_of_drop (s : Str) (i : Nat) (c : Char) (r : Str)
    (h : s.drop i = c :: r) : s.getD i ' ' = c := by
  have h1 : s[i]? = some c := by
    rw [← List.head?_drop, h]
    rfl
  rw [List.getD_eq_getElem?_getD, h1]
  rfl

theorem braceEndAux_exact (s : Str) (array_end : Nat) :
    ∀ (body : Str) (i : Nat) (rest : Str) (fuel : Nat),
      s.drop i = body ++ '\x7d' :: rest →
      (∀ c ∈ body, c ≠ '\x7b' ∧ c ≠ '\x7d') →
      i + body.length + 1 ≤ array_end →
      i + body.length + 1 ≤ i + fuel →
      braceEndAux s array_end fuel i 1 = (i + body.length + 1, 0) := by
  intro body
  induction body with
  | nil =>
    intro i rest fuel hdrop hbody hle hfuel
    cases fuel with
    | zero => omega
    | succ f =>
      rw [braceEndAux, if_pos ⟨by simp at hle ⊢; omega, by omega⟩,
          getD_of_drop s i '\x7d' rest (by simpa using hdrop)]
      show braceEndAux s array_end f (i + 1) 0 = (i + [].length + 1, 0)
      rw [braceEndAux_depth0]
      simp
  | cons c body' ih =>
    intro i rest fuel hdrop hbody hle hfuel
    cases fuel with
    | zero =>
      simp only [List.length_cons] at hfuel
      omega
    | succ f =>
      have hdropc : s.drop i = c :: (body' ++ '\x7d' :: rest) := by simpa using hdrop
      rw [braceEndAux,
          if_pos ⟨by simp only [List.length_cons] at hle; omega, by omega⟩,
          getD_of_drop s i c _ hdropc]
      show braceEndAux s array_end f (i + 1)
          (if c = '\x7b' then 1 + 1 else if c = '\x7d' then 1 - 1 else 1) =
        (i + (c :: body').length + 1, 0)
      rw [if_neg (hbody c (by simp)).1, if_neg (hbody c (by simp)).2]
      have hdrop' : s.drop (i + 1) = body' ++ '\x7d' :: rest := by
        rw [← List.drop_drop, hdropc]
        rfl
      rw [ih (i + 1) rest f hdrop' (fun x hx => hbody x (by simp [hx]))
            (by simp only [List.length_cons] at hle; omega)
            (by simp only [List.length_cons] at hfuel; omega)]
      simp only [List.length_cons]
      congr 1
      omega

theorem braceEnd_exact (s : Str) (array_end i : Nat) (body rest : Str)
    (hdrop : s.drop i = body ++ '\x7d' :: rest)
    (hbody : ∀ c ∈ body, c ≠ '\x7b' ∧ c ≠ '\x7d')
    (hle : i + body.length + 1 ≤ array_end) :
    braceEnd s array_end i 1 = (i + body.length + 1, 0) := by
  unfold braceEnd
  exact braceEndAux_exact s array_end body i rest (array_end - i) hdrop hbody hle
    (by omega)

/-- The four-space-indented block of one task, from `\x7b` to `\x7d`. -/
def taskBlock (clock : Clock) (t : Task) : Str :=
  renderObj (lit "    ") (taskFields clock t)

/-- The task-array body of `toJsonString`: the indented blocks joined by
commas and newlines. -/
def blocksText (clock : Clock) (ts : List Task) : Str :=
  joinBlocks (ts.map (fun t => lit "    " ++ taskBlock clock t))

/-- `localtime`/`mktime` invert on the completion time, when present. -/
def OptClockOK (clock : Clock) : Option Nat → Prop
  | none => True
  | some ct => ClockTimeOK clock ct

instance (clock : Clock) (o : Option Nat) : Decidable (OptClockOK clock o) := by
  cases o <;> (unfold OptClockOK; infer_instance)

/-- `localtime`/`mktime` invert on all three stored times of a record. -/
def TaskClockOK (clock : Clock) (t : Task) : Prop :=
  ClockTimeOK clock t.metadata.created_at ∧ ClockTimeOK clock t.metadata.updated_at ∧
  OptClockOK clock t.metadata.completed_at

instance (clock : Clock) (t : Task) : Decidable (TaskClockOK clock t) := by
  unfold TaskClockOK; infer_instance

theorem optClockOK_elim (clock : Clock) (o : Option Nat) (h : OptClockOK clock o) :
    ∀ ct, o = some ct → ClockTimeOK clock ct := by
  intro ct he
  subst he
  exact h

theorem drop_shift (s : Str) (pos : Nat) (u v : Str) (h : s.drop pos = u ++ v) :
    s.drop (pos + u.length) = v := by
  rw [← List.drop_drop, h, List.drop_left]

theorem joinBlocks_cons (b : Str) (rest : List Str) :
    joinBlocks (b :: rest) =
      b ++ (if rest = [] then lit "\n" else lit ",\n" ++ joinBlocks rest) := by
  cases rest with
  | nil => simp [joinBlocks]
  | cons b2 r2 => simp [joinBlocks]

theorem blocksText_decomp (clock : Clock) (t : Task) (ts : List Task) :
    ∃ sep : Str, (sep = lit "\n" ∨ sep = lit ",\n") ∧
      blocksText clock (t :: ts) =
        (lit "    " ++ taskBlock clock t) ++ (sep ++ blocksText clock ts) := by
  cases ts with
  | nil =>
    refine ⟨lit "\n", Or.inl rfl, ?_⟩
    simp [blocksText, joinBlocks]
  | cons t2 ts2 =>
    refine ⟨lit ",\n", Or.inr rfl, ?_⟩
    simp only [blocksText, List.map_cons]
    rw [joinBlocks_cons]
    simp [List.append_assoc]

theorem taskBlock_shape (clock : Clock) (t : Task) :
    taskBlock clock t =
      '\x7b' :: objBody (lit "    ") (taskFields clock t) ++ ['\x7d'] := by
  unfold taskBlock
  exact renderObj_body _ _

theorem parseLoopAux_spec (clock : Clock) (now : Nat) (s : Str) (array_end : Nat) :
    ∀ (fuel : Nat) (ts : List Task) (pos : Nat) (w : Str),
      (∀ t ∈ ts, SafeTask t ∧ TaskClockOK clock t) →
      s.drop pos = w ++ blocksText clock ts ++ lit "  ]\n\x7d" →
      (∀ c ∈ w, c ≠ '\x7b') →
      pos + w.length + (blocksText clock ts).length + 2 = array_end →
      array_end ≤ pos + fuel →
      parseLoopAux clock now s array_end fuel pos = (ts, none) := by
  intro fuel
  induction fuel with
  | zero =>
    intro ts pos w hts hdrop hw hlen hfuel
    omega
  | succ f ih =>
    intro ts pos w hts hdrop hw hlen hfuel
    rw [parseLoopAux, if_pos (by omega)]
    cases ts with
    | nil =>
      have hdrop0 : s.drop pos = w ++ lit "  ]\n\x7d" := by
        simpa [blocksText, joinBlocks] using hdrop
      have hno : findFrom (lit "\x7b") s pos = none := by
        unfold findFrom
        rw [hdrop0, firstOcc_none _ _ ?_ (by decide)]
        · rfl
        · rw [show (lit "\x7b" : Str) = ['\x7b'] from rfl]
          apply clean_singleton
          intro c hc
          rcases List.mem_append.1 hc with hc | hc
          · exact hw c hc
          · intro he
            subst he
            exact absurd hc (by decide)
      rw [hno]
    | cons t ts' =>
      obtain ⟨hsafe_t, hclk_t⟩ := hts t (by simp)
      obtain ⟨sep, hsepv, hbt⟩ := blocksText_decomp clock t ts'
      have hsep_len : sep.length = 1 ∨ sep.length = 2 := by
        rcases hsepv with rfl | rfl
        · left; rfl
        · right; rfl
      have hsep_nb : ∀ c ∈ sep, c ≠ '\x7b' := by
        rcases hsepv with rfl | rfl <;> (intro c hc he; subst he; revert hc; decide)
      -- full decomposition of the tail
      have hdrop1 : s.drop pos =
          (w ++ lit "    ") ++ (taskBlock clock t ++
            (sep ++ (blocksText clock ts' ++ lit "  ]\n\x7d"))) := by
        rw [hdrop, hbt]
        simp [List.append_assoc]
      -- lengths
      have hlen1 : (blocksText clock (t :: ts')).length =
          4 + (taskBlock clock t).length + sep.length +
            (blocksText clock ts').length := by
        rw [hbt]
        simp only [List.length_append]
        rw [show (lit "    " : Str).length = 4 from rfl]
        omega
      have htb_len : (taskBlock clock t).length =
          (objBody (lit "    ") (taskFields clock t)).length + 2 := by
        rw [taskBlock_shape]
        simp
      have hsl : 1 ≤ sep.length := by rcases hsep_len with h | h <;> omega
      rw [hlen1, htb_len] at hlen
      -- step 1: find the opening brace
      have hfind : findFrom (lit "\x7b") s pos = some (pos + (w.length + 4)) := by
        have := findFrom_exact (lit "\x7b") s pos (w ++ lit "    ")
          (taskBlock clock t ++ (sep ++ (blocksText clock ts' ++ lit "  ]\n\x7d")))
          hdrop1 ?_ ?_ (by decide)
        · rw [this, show (w ++ lit "    ").length = w.length + 4 by
            rw [List.length_append]; rfl]
        · rw [show (lit "\x7b" : Str) = ['\x7b'] from rfl]
          apply clean_singleton
          intro c hc
          rcases List.mem_append.1 hc with hc | hc
          · exact hw c hc
          · intro he
            subst he
            exact absurd hc (by decide)
        · rw [taskBlock_shape]
          exact ⟨_, rfl⟩
      rw [hfind]
      simp only []
      rw [if_neg (by omega)]
      -- step 2: the brace walk
      have hdropB : s.drop (pos + (w.length + 4)) =
          taskBlock clock t ++ (sep ++ (blocksText clock ts' ++ lit "  ]\n\x7d")) := by
        have := drop_shift s pos (w ++ lit "    ") _ hdrop1
        simpa using this
      have hdropBody : s.drop (pos + (w.length + 4) + 1) =
          objBody (lit "    ") (taskFields clock t) ++
            '\x7d' :: (sep ++ (blocksText clock ts' ++ lit "  ]\n\x7d")) := by
        have h2 : s.drop (pos + (w.length + 4)) =
            ['\x7b'] ++ (objBody (lit "    ") (taskFields clock t) ++
              '\x7d' :: (sep ++ (blocksText clock ts' ++ lit "  ]\n\x7d"))) := by
          rw [hdropB, taskBlock_shape]
          simp
        have := drop_shift s (pos + (w.length + 4)) _ _ h2
        simpa using this
      have hbody_safe : ∀ c ∈ objBody (lit "    ") (taskFields clock t),
          c ≠ '\x7b' ∧ c ≠ '\x7d' := by
        intro c hc
        have := objBody_braceSafe (lit "    ") (by decide) (taskFields clock t)
          (taskFields_props clock t hsafe_t) c hc
        exact ⟨this.1, this.2.1⟩
      have hbrace : braceEnd s array_end (pos + (w.length + 4) + 1) 1 =
          (pos + (w.length + 4) + 1 +
            (objBody (lit "    ") (taskFields clock t)).length + 1, 0) := by
        apply braceEnd_exact s array_end _ _ _ hdropBody hbody_safe
        omega
      simp only [hbrace]
      rw [if_pos trivial]
      -- step 3: the block slice decodes to the task
      have hsub : substr s (pos + (w.length + 4))
          (pos + (w.length + 4) + 1 +
            (objBody (lit "    ") (taskFields clock t)).length + 1 -
            (pos + (w.length + 4))) = renderObj (lit "    ") (taskFields clock t) := by
        show _ = taskBlock clock t
        unfold substr
        rw [hdropB,
            show pos + (w.length + 4) + 1 +
              (objBody (lit "    ") (taskFields clock t)).length + 1 -
              (pos + (w.length + 4)) = (taskBlock clock t).length by
                rw [htb_len]; omega,
            List.take_left]
      rw [hsub,
          fromJson_render clock now (lit "    ") (by decide) t hsafe_t hclk_t.1
            hclk_t.2.1 (optClockOK_elim clock _ hclk_t.2.2)]
      -- step 4: the recursive call
      have hrec : parseLoopAux clock now s array_end f
          (pos + (w.length + 4) + 1 +
            (objBody (lit "    ") (taskFields clock t)).length + 1) =
          (ts', none) := by
        apply ih ts' _ sep (fun x hx => hts x (by simp [hx])) ?_ hsep_nb ?_ ?_
        · have := drop_shift s (pos + (w.length + 4)) (taskBlock clock t) _ hdropB
          rw [htb_len] at this
          rw [show pos + (w.length + 4) + 1 +
                (objBody (lit "    ") (taskFields clock t)).length + 1 =
              pos + (w.length + 4) +
                ((objBody (lit "    ") (taskFields clock t)).length + 2) by omega]
          rw [this]
          simp [List.append_assoc]
        · omega
        · omega
      rw [hrec]

/-! ## C5 (round-trip part): the document header -/

/-- The fixed version field of the header. -/
def verField : Str × FieldVal := (lit "version", FieldVal.str (lit "1.0"))

/-- The header's next-identity field. -/
def nidField (nid : Int) : Str × FieldVal :=
  (lit "next_id", FieldVal.bare (intToChars nid))

/-- Every record of the store lies in the scanner-safe fragment. -/
def SafeStore (m : TaskManager) : Prop := ∀ t ∈ m.tasks, SafeTask t

instance (m : TaskManager) : Decidable (SafeStore m) := by
  unfold SafeStore; infer_instance

/-- `localtime`/`mktime` invert on every time stored in the store. -/
def ClockOK (clock : Clock) (m : TaskManager) : Prop :=
  ∀ t ∈ m.tasks, TaskClockOK clock t

instance (clock : Clock) (m : TaskManager) : Decidable (ClockOK clock m) := by
  unfold ClockOK; infer_instance

theorem blocksText_no_rb (clock : Clock) (ts : List Task)
    (h : ∀ t ∈ ts, SafeTask t) : ∀ c ∈ blocksText clock ts, c ≠ ']' := by
  induction ts with
  | nil => intro c hc; simp [blocksText, joinBlocks] at hc
  | cons t ts' ih =>
    obtain ⟨sep, hsepv, hbt⟩ := blocksText_decomp clock t ts'
    intro c hc
    rw [hbt] at hc
    rcases List.mem_append.1 hc with hc | hc
    · rcases List.mem_append.1 hc with hc | hc
      · have he2 : lit "    " = [' ', ' ', ' ', ' '] := rfl
        rw [he2] at hc
        intro he
        subst he
        simp at hc
      · rw [taskBlock_shape] at hc
        rcases List.mem_cons.1 hc with rfl | hc
        · decide
        rcases List.mem_append.1 hc with hc | hc
        · exact (objBody_braceSafe (lit "    ") (by decide) _
            (taskFields_props clock t (h t (by simp))) c hc).2.2
        · rcases List.mem_singleton.1 hc with rfl
          decide
    · rcases List.mem_append.1 hc with hc | hc
      · rcases hsepv with rfl | rfl <;>
          (intro he; subst he; revert hc; decide)
      · exact ih (fun x hx => h x (by simp [hx])) c hc

theorem map_blocks (clock : Clock) (ts : List Task) (h : ∀ t ∈ ts, SafeTask t) :
    ts.map (fun t => indent4 (Task.toJson clock t)) =
      ts.map (fun t => lit "    " ++ taskBlock clock t) := by
  apply List.map_congr_left
  intro t ht
  show ' ' :: ' ' :: ' ' :: ' ' :: indentNL (Task.toJson clock t) = _
  rw [taskBlock_eq clock t (h t ht)]
  rfl

theorem toJsonString_decomp (clock : Clock) (m : TaskManager) (hsafe : SafeStore m) :
    TaskManager.toJsonString clock m =
      (objOpen [] ++ preText [] [verField]) ++ (keyPat (lit "next_id") ++ (' ' ::
        (intToChars m.next_id ++ (fieldSep [] ++ (keyPat (lit "tasks") ++
          (' ' :: '[' :: '\n' ::
            (blocksText clock m.tasks ++ lit "  ]\n\x7d"))))))) := by
  unfold TaskManager.toJsonString blocksText
  rw [map_blocks clock m.tasks hsafe]
  simp only [objOpen, preText, fieldsText, renderField, fieldSep, renderVal, keyPat,
    verField, List.append_assoc, List.cons_append, List.nil_append, List.append_nil,
    List.cons_ne_nil, ite_false]
  rfl

theorem toJsonString_decomp2 (clock : Clock) (m : TaskManager) (hsafe : SafeStore m) :
    TaskManager.toJsonString clock m =
      (objOpen [] ++ preText [] [verField, nidField m.next_id]) ++
        (keyPat (lit "tasks") ++ (' ' :: '[' :: '\n' ::
          (blocksText clock m.tasks ++ lit "  ]\n\x7d"))) := by
  rw [toJsonString_decomp clock m hsafe]
  simp only [objOpen, preText, fieldsText, renderField, fieldSep, renderVal, keyPat,
    verField, nidField, List.append_assoc, List.cons_append, List.nil_append,
    List.append_nil, List.cons_ne_nil, ite_false]

theorem drop_of_eq (s u v : Str) (h : s = u ++ v) : s.drop u.length = v := by
  rw [h, List.drop_left]

/-- Reading a bare (unquoted) value through the `findValue` scan of
`TaskManager::fromJsonString`. -/
theorem findValueM_bare (s key : Str) (i : Nat) (v rest : Str)
    (hocc : firstOcc (keyPat key) s = some i)
    (hdrop : s.drop (i + (keyPat key).length) = ' ' :: (v ++ rest))
    (hv : v ≠ [])
    (hvc : ∀ c ∈ v, isSpace c = false ∧ isBareStop c = false ∧
      isTrimWs c = false ∧ c ≠ '"')
    (hrest : ∀ x, rest.head? = some x → isBareStop x = true) :
    findValueM s key = v := by
  rw [findValueM_some _ _ _ hocc, hdrop]
  obtain ⟨d, ds, rfl⟩ : ∃ d ds, v = d :: ds := by
    cases v with
    | nil => exact absurd rfl hv
    | cons d ds => exact ⟨d, ds, rfl⟩
  rw [List.dropWhile_cons, if_pos (by decide : isSpace ' ' = true),
      show ((d :: ds) ++ rest : Str) = d :: (ds ++ rest) by simp,
      List.dropWhile_cons, (hvc d (by simp)).1]
  simp only [Bool.false_eq_true, if_false]
  show (if d = '"' then scanStringBody (ds ++ rest)
    else trimWs ((d :: (ds ++ rest)).takeWhile (fun x => !isBareStop x))) = d :: ds
  rw [if_neg (hvc d (by simp)).2.2.2,
      show d :: (ds ++ rest) = (d :: ds) ++ rest by simp,
      takeWhile_append_exact _ _ _ (fun c hc => by simp [(hvc c hc).2.1])
        (fun x hx => by simp [hrest x hx])]
  exact trimWs_eq_self _ (fun c hc => (hvc c hc).2.2.1)

set_option maxHeartbeats 3200000 in
/-- C5 (amended, positive part): for every store in the scanner-safe fragment —
non-empty titles and categories; titles, descriptions and categories free of
quote, backslash, braces, `]` and raw control characters — and a clock
(`localtime`/`mktime`) that inverts on every stored time, encoding the store
and decoding the text into any store yields success and exactly the original
records and next-identity counter. -/
theorem c5_roundtrip (clock : Clock) (now : Nat) (m0 m : TaskManager)
    (hsafe : SafeStore m) (hclk : ClockOK clock m) :
    TaskManager.fromJsonString clock now m0 (TaskManager.toJsonString clock m) =
      (.ok true, m) := by
  have hdoc := toJsonString_decomp clock m hsafe
  have hdoc2 := toJsonString_decomp2 clock m hsafe
  have hfv : ∀ f ∈ [verField], KeyOK f.1 ∧ ValWF f.2 := by
    intro f hf
    rcases List.mem_singleton.1 hf with rfl
    exact ⟨by decide, by decide⟩
  have hfv2 : ∀ f ∈ [verField, nidField m.next_id], KeyOK f.1 ∧ ValWF f.2 := by
    intro f hf
    rcases List.mem_cons.1 hf with rfl | hf
    · exact ⟨by decide, by decide⟩
    rcases List.mem_singleton.1 hf with rfl
    exact ⟨(by decide : KeyOK (lit "next_id")), valWF_bare_int m.next_id⟩
  -- locate and read the next_id field
  have hocc1 : firstOcc (keyPat (lit "next_id")) (TaskManager.toJsonString clock m) =
      some (objOpen ([] : Str) ++ preText [] [verField]).length := by
    rw [hdoc]
    apply firstOcc_found
    · apply clean_append
      · exact clean_quoteFree _ _ _ (objOpen_quoteFree [] (by decide)) (keyPat_head _)
      · exact clean_preText _ (by decide) [] (by decide) [verField] hfv
          (by intro f hf; rcases List.mem_singleton.1 hf with rfl; decide) _
    · exact List.prefix_append _ _
    · exact keyPat_ne_nil _
  have hdrop1 : (TaskManager.toJsonString clock m).drop
      ((objOpen ([] : Str) ++ preText [] [verField]).length +
        (keyPat (lit "next_id")).length) =
      ' ' :: (intToChars m.next_id ++ (fieldSep [] ++ (keyPat (lit "tasks") ++
        (' ' :: '[' :: '\n' ::
          (blocksText clock m.tasks ++ lit "  ]\n\x7d"))))) := by
    have h2 : TaskManager.toJsonString clock m =
        ((objOpen [] ++ preText [] [verField]) ++ keyPat (lit "next_id")) ++
          (' ' :: (intToChars m.next_id ++ (fieldSep [] ++ (keyPat (lit "tasks") ++
            (' ' :: '[' :: '\n' ::
              (blocksText clock m.tasks ++ lit "  ]\n\x7d")))))) := by
      rw [hdoc]
      simp [List.append_assoc]
    have h3 := drop_of_eq _ _ _ h2
    rw [show (objOpen ([] : Str) ++ preText [] [verField]).length +
          (keyPat (lit "next_id")).length =
        (((objOpen ([] : Str) ++ preText [] [verField]) ++
          keyPat (lit "next_id")) : Str).length by
        rw [List.length_append, List.length_append, List.length_append]]
    exact h3
  have hnv : findValueM (TaskManager.toJsonString clock m) (lit "next_id") =
      intToChars m.next_id := by
    apply findValueM_bare _ _ _ _ _ hocc1 hdrop1 (intToChars_ne_nil _)
    · intro c hc
      have h := int_class c (intToChars_mem _ c hc)
      exact ⟨h.2.1, h.1, h.2.2.1, h.2.2.2.1⟩
    · intro x hx
      injection hx with hx
      rw [← hx]
      rfl
  -- locate the tasks array
  have hocc2 : firstOcc (lit "\"tasks\":") (TaskManager.toJsonString clock m) =
      some (objOpen ([] : Str) ++ preText [] [verField, nidField m.next_id]).length := by
    rw [show (lit "\"tasks\":" : Str) = keyPat (lit "tasks") from rfl, hdoc2]
    apply firstOcc_found
    · apply clean_append
      · exact clean_quoteFree _ _ _ (objOpen_quoteFree [] (by decide)) (keyPat_head _)
      · exact clean_preText _ (by decide) [] (by decide) _ hfv2
          (by
            intro f hf
            rcases List.mem_cons.1 hf with rfl | hf
            · decide
            rcases List.mem_singleton.1 hf with rfl
            show (lit "next_id" : Str) ≠ lit "tasks"
            decide) _
    · exact List.prefix_append _ _
    · exact keyPat_ne_nil _
  have hdrop2 : (TaskManager.toJsonString clock m).drop
      (objOpen ([] : Str) ++ preText [] [verField, nidField m.next_id]).length =
      keyPat (lit "tasks") ++ (' ' :: '[' :: '\n' ::
        (blocksText clock m.tasks ++ lit "  ]\n\x7d")) :=
    drop_of_eq _ _ _ hdoc2
  have h3 : findFrom (lit "[") (TaskManager.toJsonString clock m)
      (objOpen ([] : Str) ++ preText [] [verField, nidField m.next_id]).length =
      some ((objOpen ([] : Str) ++
        preText [] [verField, nidField m.next_id]).length + 9) := by
    have := findFrom_exact (lit "[") (TaskManager.toJsonString clock m) _
      (keyPat (lit "tasks") ++ [' '])
      ('[' :: '\n' :: (blocksText clock m.tasks ++ lit "  ]\n\x7d"))
      (by rw [hdrop2]; simp [List.append_assoc])
      (by
        rw [show (lit "[" : Str) = ['['] from rfl]
        apply clean_singleton
        intro c hc he
        subst he
        revert hc
        decide)
      ⟨_, rfl⟩ (by decide)
    rw [this]
    exact rfl
  have hdrop3 : (TaskManager.toJsonString clock m).drop
      ((objOpen ([] : Str) ++ preText [] [verField, nidField m.next_id]).length + 9) =
      '[' :: '\n' :: (blocksText clock m.tasks ++ lit "  ]\n\x7d") := by
    have h2 : (TaskManager.toJsonString clock m).drop
        (objOpen ([] : Str) ++ preText [] [verField, nidField m.next_id]).length =
        (keyPat (lit "tasks") ++ [' ']) ++
          ('[' :: '\n' :: (blocksText clock m.tasks ++ lit "  ]\n\x7d")) := by
      rw [hdrop2]
      simp
    have h6 := drop_shift _ _ _ _ h2
    rw [show (9 : Nat) = ((keyPat (lit "tasks") ++ ([' '] : Str))).length from rfl]
    exact h6
  have h4 : findFrom (lit "]") (TaskManager.toJsonString clock m)
      ((objOpen ([] : Str) ++ preText [] [verField, nidField m.next_id]).length + 9) =
      some ((objOpen ([] : Str) ++
          preText [] [verField, nidField m.next_id]).length + 9 +
        (4 + (blocksText clock m.tasks).length)) := by
    have hpre : ('[' :: '\n' :: (blocksText clock m.tasks ++ lit "  ]\n\x7d") : Str) =
        ('[' :: '\n' :: (blocksText clock m.tasks ++ lit "  ")) ++
          (']' :: lit "\n\x7d") := by
      rw [show (lit "  ]\n\x7d" : Str) = lit "  " ++ (']' :: lit "\n\x7d") from rfl]
      simp [List.append_assoc]
    have := findFrom_exact (lit "]") (TaskManager.toJsonString clock m) _
      ('[' :: '\n' :: (blocksText clock m.tasks ++ lit "  "))
      (']' :: lit "\n\x7d")
      (by rw [hdrop3, hpre])
      (by
        rw [show (lit "]" : Str) = [']'] from rfl]
        apply clean_singleton
        intro c hc
        rcases List.mem_cons.1 hc with rfl | hc
        · decide
        rcases List.mem_cons.1 hc with rfl | hc
        · decide
        rcases List.mem_append.1 hc with hc | hc
        · exact blocksText_no_rb clock m.tasks hsafe c hc
        · intro he
          subst he
          revert hc
          decide)
      ⟨_, rfl⟩ (by decide)
    rw [this]
    congr 2
    simp only [List.length_cons, List.length_append,
      show (lit "  " : Str).length = 2 from rfl]
    omega
  -- the task-array loop
  have h5 : parseLoop clock now (TaskManager.toJsonString clock m)
      ((objOpen ([] : Str) ++ preText [] [verField, nidField m.next_id]).length + 9 +
        (4 + (blocksText clock m.tasks).length))
      ((objOpen ([] : Str) ++ preText [] [verField, nidField m.next_id]).length + 9 + 1) =
      (m.tasks, none) := by
    unfold parseLoop
    apply parseLoopAux_spec clock now _ _ _ m.tasks _ ['\n']
      (fun t ht => ⟨hsafe t ht, hclk t ht⟩)
    · have h2 : (TaskManager.toJsonString clock m).drop
          ((objOpen ([] : Str) ++ preText [] [verField, nidField m.next_id]).length + 9) =
          ['['] ++ ('\n' :: (blocksText clock m.tasks ++ lit "  ]\n\x7d")) := by
        rw [hdrop3]
        rfl
      have h6 := drop_shift _ _ _ _ h2
      rw [show ((objOpen ([] : Str) ++
            preText [] [verField, nidField m.next_id]).length + 9 + 1) =
          ((objOpen ([] : Str) ++
            preText [] [verField, nidField m.next_id]).length + 9 + (['['] : Str).length)
          from rfl, h6]
      simp
    · intro c hc
      rcases List.mem_singleton.1 hc with rfl
      decide
    · simp only [List.length_singleton]
      omega
    · omega
  -- assemble the decoder's steps
  simp only [TaskManager.fromJsonString, hnv, stoiOpt_intToChars, hocc2, h3, h4, h5,
    intToChars_ne_nil, ite_false, ne_eq]

/-- A concrete scanner-safe store for the round-trip witness. -/
def c5SafeStore : TaskManager :=
  { tasks := [Task.make 1 (lit "a") (lit "b") .Pending 0], next_id := 2 }

theorem c5_witness :
    SafeStore c5SafeStore ∧ ClockOK demoClock c5SafeStore ∧
    TaskManager.fromJsonString demoClock 0 emptyStore
        (TaskManager.toJsonString demoClock c5SafeStore) = (.ok true, c5SafeStore) :=
  ⟨by decide, by decide,
   c5_roundtrip demoClock 0 emptyStore c5SafeStore (by decide) (by decide)⟩

end TaskTracker
